import Mathlib

/-!
Verification of the diff/patch engine of the local coding-agent repository.

Two source modules are embedded:
- the webview review model (`parseUnifiedDiff` / `buildUnifiedDiff` in
  `webview-ui/src/ui/diff.ts`), and
- the applier (`applyPatch` / `parseDiff` / `applyHunks` in `src/patchApply.ts`).

JavaScript string operations are modelled at the character-list level
(`String` is a wrapper around `List Char`), so that `split`, `startsWith`,
`slice`, `trim` and the two hunk-header patterns are explicit executable
functions.
-/

set_option autoImplicit false

namespace Spec2Proof

/-! Character-level models of the JavaScript string operations. -/

/-- Boolean prefix test on character lists (model of `String.prototype.startsWith`). -/
def lStartsWith : List Char → List Char → Bool
  | [], _ => true
  | _ :: _, [] => false
  | p :: ps, c :: cs => if p = c then lStartsWith ps cs else false

/-- Model of `s.startsWith(p)`. -/
def sStarts (s p : String) : Bool := lStartsWith p.data s.data

/-- Model of `s.slice(n)` on strings (drop the first `n` characters). -/
def sDrop (s : String) (n : Nat) : String := ⟨s.data.drop n⟩

/-- Model of `s.trim()`: strip whitespace from both ends. -/
def sTrim (s : String) : String :=
  ⟨((s.data.dropWhile Char.isWhitespace).reverse.dropWhile Char.isWhitespace).reverse⟩

/-- Split a character list at every newline character (model of `split("\n")`). -/
def lsplit : List Char → List (List Char)
  | [] => [[]]
  | c :: rest =>
    if c = '\n' then [] :: lsplit rest
    else (c :: (lsplit rest).headI) :: (lsplit rest).tail

/-- Model of `s.split("\n")`. -/
def splitNl (s : String) : List String := (lsplit s.data).map (⟨·⟩)

/-- Interleave a newline character between the pieces (model of `join("\n")`). -/
def ljoin : List (List Char) → List Char
  | [] => []
  | [x] => x
  | x :: y :: ys => x ++ '\n' :: ljoin (y :: ys)

/-- Model of `lines.join("\n")`. -/
def joinNl (ls : List String) : String := ⟨ljoin (ls.map String.data)⟩

/-- Remove one trailing carriage return, if present. -/
def dropCr (l : List Char) : List Char :=
  match l.reverse with
  | c :: r => if c = '\r' then r.reverse else l
  | [] => l

/-- Apply `dropCr` to every piece except the last one. -/
def stripCrAll : List (List Char) → List (List Char)
  | [] => []
  | [x] => [x]
  | x :: y :: ys => dropCr x :: stripCrAll (y :: ys)

/-- Model of `s.split(/\r?\n/)`: split at newlines, a carriage return immediately
before a newline is consumed with it. -/
def splitCrLf (s : String) : List String := (stripCrAll (lsplit s.data)).map (⟨·⟩)

/-- Value of a list of decimal digit characters (model of `parseInt(s, 10)` on an
all-digit string). -/
def digitsToNat (ds : List Char) : Nat :=
  ds.foldl (fun a c => a * 10 + (c.toNat - 48)) 0

/-- Read a maximal nonempty run of digits from the front. -/
def readDigits (cs : List Char) : Option (Nat × List Char) :=
  let ds := cs.takeWhile Char.isDigit
  if ds.isEmpty then none else some (digitsToNat ds, cs.drop ds.length)

/-- Read the optional `,count` part of the webview hunk pattern `,?(\d*)`:
an optional comma followed by a possibly empty digit run (`none` = group empty). -/
def readCountW (cs : List Char) : Option Nat × List Char :=
  match cs with
  | ',' :: r =>
    let ds := r.takeWhile Char.isDigit
    (if ds.isEmpty then none else some (digitsToNat ds), r.drop ds.length)
  | r => (none, r)

/-- Model of the webview hunk-header pattern
`^@@ -(\d+),?(\d*) \+(\d+),?(\d*) @@`, anchored at the start of the line;
empty count groups default to 1 (the caller's `parseInt(g) : 1` choice is
applied here). Returns `(oldStart, oldLines, newStart, newLines)`. -/
def matchHunkW (s : String) : Option (Nat × Nat × Nat × Nat) :=
  match s.data with
  | '@' :: '@' :: ' ' :: '-' :: r0 =>
    match readDigits r0 with
    | none => none
    | some (os, r1) =>
      match readCountW r1 with
      | (olOpt, r2) =>
        match r2 with
        | ' ' :: '+' :: r3 =>
          match readDigits r3 with
          | none => none
          | some (ns, r4) =>
            match readCountW r4 with
            | (nlOpt, r5) =>
              match r5 with
              | ' ' :: '@' :: '@' :: _ => some (os, olOpt.getD 1, ns, nlOpt.getD 1)
              | _ => none
        | _ => none
  | _ => none

/-! Data model of the webview review document (`DiffLine`, `DiffHunk`,
`DiffFile` in `diff.ts`). -/

/-- Tag of a review line: `"add" | "del" | "ctx" | "meta"`. -/
inductive LineType where
  | add
  | del
  | ctx
  | meta
  deriving DecidableEq

/-- One line of a parsed hunk. Optional fields model the `?` fields of the
TypeScript type (`undefined` = `none`). -/
structure DiffLine where
  type : LineType
  text : String
  oldLine : Option Nat := none
  newLine : Option Nat := none
  accepted : Option Bool := none
  deriving DecidableEq

/-- One hunk of a parsed file. -/
structure DiffHunk where
  header : String
  oldStart : Nat
  oldLines : Nat
  newStart : Nat
  newLines : Nat
  lines : List DiffLine
  deriving DecidableEq

/-- One file block of a parsed diff. -/
structure DiffFile where
  header : List String
  path : String
  hunks : List DiffHunk
  deriving DecidableEq

/-- Test for the pre-hunk header line markers of `parseUnifiedDiff`. -/
def isHeaderMarker (line : String) : Bool :=
  sStarts line "index " || sStarts line "--- " || sStarts line "+++ " ||
    sStarts line "new file" || sStarts line "deleted file"

/-- Open hunk under construction together with the file data accumulated so far. -/
structure WCur where
  header : List String
  path : String
  hunks : List DiffHunk
  hcur : Option DiffHunk
  deriving DecidableEq

/-- Full state of the webview diff scanner: finished files, the current file
(if any) and the two running line cursors. -/
structure WState where
  files : List DiffFile
  cur : Option WCur
  oldL : Nat
  newL : Nat
  deriving DecidableEq

/-- Close the open hunk of a current file, appending it after the finished ones. -/
def closeHunks (c : WCur) : List DiffHunk :=
  match c.hcur with
  | none => c.hunks
  | some h => c.hunks ++ [h]

/-- Flush the current file (with its open hunk) onto the finished-file list. -/
def closeCur (st : WState) : List DiffFile :=
  match st.cur with
  | none => st.files
  | some c => st.files ++ [⟨c.header, c.path, closeHunks c⟩]

/-- One iteration of the `for (const line of lines)` loop of `parseUnifiedDiff`. -/
def wstep (st : WState) (line : String) : WState :=
  if sStarts line "diff --git " then
    ⟨closeCur st, some ⟨[line], "", [], none⟩, st.oldL, st.newL⟩
  else
    match st.cur with
    | none => st
    | some c =>
      if isHeaderMarker line then
        ⟨st.files,
          some { c with
            header := c.header ++ [line],
            path := if sStarts line "+++ b/" then sTrim (sDrop line 6) else c.path },
          st.oldL, st.newL⟩
      else
        match matchHunkW line with
        | some (os, ol, ns, nl) =>
          ⟨st.files,
            some { c with hunks := closeHunks c, hcur := some ⟨line, os, ol, ns, nl, []⟩ },
            os, ns⟩
        | none =>
          match c.hcur with
          | none => ⟨st.files, some { c with header := c.header ++ [line] }, st.oldL, st.newL⟩
          | some h =>
            if sStarts line "+" then
              ⟨st.files,
                some { c with hcur := some { h with
                  lines := h.lines ++ [⟨.add, line, none, some st.newL, some true⟩] } },
                st.oldL, st.newL + 1⟩
            else if sStarts line "-" then
              ⟨st.files,
                some { c with hcur := some { h with
                  lines := h.lines ++ [⟨.del, line, some st.oldL, none, some true⟩] } },
                st.oldL + 1, st.newL⟩
            else if sStarts line " " then
              ⟨st.files,
                some { c with hcur := some { h with
                  lines := h.lines ++ [⟨.ctx, line, some st.oldL, some st.newL, none⟩] } },
                st.oldL + 1, st.newL + 1⟩
            else
              ⟨st.files,
                some { c with hcur := some { h with
                  lines := h.lines ++ [⟨.meta, line, none, none, none⟩] } },
                st.oldL, st.newL⟩

/-- Run the scanner over a list of input lines and flush the last open file. -/
def parseLinesW (ls : List String) : List DiffFile :=
  closeCur (ls.foldl wstep ⟨[], none, 0, 0⟩)

/-- Model of `parseUnifiedDiff` from `diff.ts`. -/
def parseUnifiedDiff (s : String) : List DiffFile :=
  parseLinesW (splitNl s)

/-! Model of `buildUnifiedDiff` from `diff.ts`. -/

/-- Kept lines of a hunk: `add`/`del` lines survive iff `accepted !== false`;
`ctx`/`meta` lines always survive. -/
def keptW (h : DiffHunk) : List DiffLine :=
  h.lines.filter fun l =>
    if l.type = .add || l.type = .del then l.accepted ≠ some false else true

/-- Whether a kept line set still records a change. -/
def hasChangeLine (ls : List DiffLine) : Bool :=
  ls.any fun l => l.type = .add || l.type = .del

/-- Emitted hunk header of `buildUnifiedDiff`: original starts, recomputed counts. -/
def mkHeaderW (oldStart oldCount newStart newCount : Nat) : String :=
  "@@ -" ++ toString oldStart ++ "," ++ toString oldCount ++
    " +" ++ toString newStart ++ "," ++ toString newCount ++ " @@"

/-- Per-hunk step of `buildUnifiedDiff`: filter, drop if change-free, else emit
the recomputed header together with the kept lines. -/
def buildHunkW (h : DiffHunk) : Option (String × List DiffLine) :=
  let kept := keptW h
  if hasChangeLine kept then
    some (mkHeaderW h.oldStart (kept.filter fun l => l.type = .ctx || l.type = .del).length
            h.newStart (kept.filter fun l => l.type = .ctx || l.type = .add).length,
          kept)
  else none

/-- Surviving hunks of one file, with their emitted headers. -/
def buildFileW (f : DiffFile) : List (String × List DiffLine) :=
  f.hunks.filterMap buildHunkW

/-- Output lines of `buildUnifiedDiff` (before the final newline join). -/
def buildLinesW (files : List DiffFile) : List String :=
  files.foldl
    (fun out f =>
      let hs := buildFileW f
      if hs.isEmpty then out
      else out ++ f.header ++ (hs.map fun p => p.1 :: p.2.map (·.text)).flatten)
    []

/-- Model of `buildUnifiedDiff` from `diff.ts`. -/
def buildUnifiedDiff (files : List DiffFile) : String :=
  joinNl (buildLinesW files)

/-! Renderings of a review document back to diff text. `renderOrig` emits every
hunk with its original header line; `renderRecomp` differs from it only in that
each hunk header is replaced by the recomputed header that `buildUnifiedDiff`
emits. A valid unified diff is a rendering of a well-formed document. -/

/-- Count of `ctx`/`del` lines: the old-side length of a line block. -/
def cntOld (ls : List DiffLine) : Nat :=
  (ls.filter fun l => l.type = .ctx || l.type = .del).length

/-- Count of `ctx`/`add` lines: the new-side length of a line block. -/
def cntNew (ls : List DiffLine) : Nat :=
  (ls.filter fun l => l.type = .ctx || l.type = .add).length

/-- Recomputed header of a hunk whose lines are all kept. -/
def mkRecompHeaderW (h : DiffHunk) : String :=
  mkHeaderW h.oldStart (cntOld h.lines) h.newStart (cntNew h.lines)

/-- Lines of one hunk as they appear in the source diff text. -/
def renderHunkO (h : DiffHunk) : List String := h.header :: h.lines.map (·.text)

/-- Lines of one file block as they appear in the source diff text. -/
def renderFileO (f : DiffFile) : List String := f.header ++ (f.hunks.map renderHunkO).flatten

/-- Lines of a whole document as they appear in the source diff text. -/
def renderLinesO (files : List DiffFile) : List String := (files.map renderFileO).flatten

/-- Source diff text of a document. -/
def renderOrig (files : List DiffFile) : String := joinNl (renderLinesO files)

/-- Lines of one hunk with the recomputed header. -/
def renderHunkR (h : DiffHunk) : List String := mkRecompHeaderW h :: h.lines.map (·.text)

/-- Lines of one file block with recomputed hunk headers. -/
def renderFileR (f : DiffFile) : List String := f.header ++ (f.hunks.map renderHunkR).flatten

/-- Lines of a whole document with recomputed hunk headers. -/
def renderLinesR (files : List DiffFile) : List String := (files.map renderFileR).flatten

/-- Diff text of a document with recomputed hunk headers. -/
def renderRecomp (files : List DiffFile) : String := joinNl (renderLinesR files)

/-- Path computed by folding the `+++ b/` updates of `parseUnifiedDiff` over a
list of header lines. -/
def pathFold (p : String) (ls : List String) : String :=
  ls.foldl (fun p l => if sStarts l "+++ b/" then sTrim (sDrop l 6) else p) p

/-! Well-formedness of a review document: the shape `parseUnifiedDiff` produces
on a conventional unified diff, restricted so that no body line collides with
the file-marker, header-marker or hunk-header patterns the scanner tests. -/

/-- Newline-freeness of an emitted line. -/
def noNl (s : String) : Bool := s.data.all (· ≠ '\n')

/-- String-shape conditions on one hunk body line: it is newline-free, it is not
a file marker, not a header-marker line, not a hunk header, and its first
character matches its tag. -/
def lineWFb (l : DiffLine) : Bool :=
  noNl l.text && !sStarts l.text "diff --git " && !isHeaderMarker l.text &&
    (matchHunkW l.text).isNone &&
    (match l.type with
     | .add => sStarts l.text "+"
     | .del => !sStarts l.text "+" && sStarts l.text "-"
     | .ctx => !sStarts l.text "+" && !sStarts l.text "-" && sStarts l.text " "
     | .meta => !sStarts l.text "+" && !sStarts l.text "-" && !sStarts l.text " ")

/-- Well-formed hunk body seeded at the given cursors: every line satisfies
`lineWFb`, carries exactly the cursor values the scanner would assign, and
`add`/`del` lines carry the parse-time default `accepted = some true`. -/
def linesWFb : Nat → Nat → List DiffLine → Bool
  | _, _, [] => true
  | o, n, l :: ls =>
    lineWFb l &&
      (match l.type with
       | .add => l.oldLine == none && l.newLine == some n && l.accepted == some true
           && linesWFb o (n + 1) ls
       | .del => l.oldLine == some o && l.newLine == none && l.accepted == some true
           && linesWFb (o + 1) n ls
       | .ctx => l.oldLine == some o && l.newLine == some n && l.accepted == none
           && linesWFb (o + 1) (n + 1) ls
       | .meta => l.oldLine == none && l.newLine == none && l.accepted == none
           && linesWFb o n ls)

/-- Well-formed hunk: its header line reparses to its four numeric fields, its
body is well formed, and it contains at least one `add`/`del` line. -/
def hunkWFb (h : DiffHunk) : Bool :=
  noNl h.header && !sStarts h.header "diff --git " && !isHeaderMarker h.header &&
    (match matchHunkW h.header with
     | some (a, b, c, d) => a == h.oldStart && b == h.oldLines && c == h.newStart && d == h.newLines
     | none => false) &&
    linesWFb h.oldStart h.newStart h.lines &&
    hasChangeLine h.lines

/-- Well-formed file block: nonempty header starting with a `diff --git` line,
further header lines that are neither file markers nor hunk headers, a path
that agrees with the `+++ b/` updates, and a nonempty list of well-formed hunks. -/
def fileWFb (f : DiffFile) : Bool :=
  match f.header with
  | [] => false
  | first :: rest =>
    sStarts first "diff --git " && noNl first &&
      rest.all (fun l => noNl l && !sStarts l "diff --git " && (matchHunkW l).isNone) &&
      f.path == pathFold "" rest &&
      !f.hunks.isEmpty && f.hunks.all hunkWFb

/-- Well-formed document. -/
def docWFb (files : List DiffFile) : Bool := files.all fileWFb

/-! Basic lemmas about the character-level primitives. -/

theorem lStartsWith_mono (p q s : List Char) (h : lStartsWith (p ++ q) s = true) :
    lStartsWith p s = true := by
  induction p generalizing s with
  | nil => rfl
  | cons a ps ih =>
    cases s with
    | nil => simp [lStartsWith] at h
    | cons c cs =>
      simp only [List.cons_append, lStartsWith] at h ⊢
      by_cases hac : a = c
      · rw [if_pos hac] at h ⊢
        exact ih cs h
      · rw [if_neg hac] at h
        exact absurd h (by simp)

theorem sStarts_pppb (l : String) (h : sStarts l "+++ b/" = true) :
    sStarts l "+++ " = true := by
  have hd : ("+++ b/" : String).data = ("+++ " : String).data ++ ['b', '/'] := by decide
  unfold sStarts at h ⊢
  rw [hd] at h
  exact lStartsWith_mono _ _ _ h

theorem isHeaderMarker_of_pppb (l : String) (h : sStarts l "+++ b/" = true) :
    isHeaderMarker l = true := by
  unfold isHeaderMarker
  rw [sStarts_pppb l h]
  simp

theorem lsplit_ne_nil (cs : List Char) : lsplit cs ≠ [] := by
  cases cs with
  | nil => simp [lsplit]
  | cons c cs => by_cases hc : c = '\n' <;> simp [lsplit, hc]

theorem lsplit_no_nl (cs : List Char) (h : '\n' ∉ cs) : lsplit cs = [cs] := by
  induction cs with
  | nil => rfl
  | cons c cs ih =>
    have hc : c ≠ '\n' := fun hc => h (hc ▸ List.mem_cons_self c cs)
    have hcs : '\n' ∉ cs := fun hm => h (List.mem_cons_of_mem c hm)
    simp [lsplit, hc, ih hcs]

theorem lsplit_chunk (xs : List Char) (h : '\n' ∉ xs) (ys : List Char) :
    lsplit (xs ++ '\n' :: ys) = xs :: lsplit ys := by
  induction xs with
  | nil => simp [lsplit]
  | cons c cs ih =>
    have hc : c ≠ '\n' := fun hc => h (hc ▸ List.mem_cons_self c cs)
    have hcs : '\n' ∉ cs := fun hm => h (List.mem_cons_of_mem c hm)
    simp [lsplit, hc, ih hcs]

theorem ljoin_cons (x : List Char) (y : List Char) (ys : List (List Char)) :
    ljoin (x :: y :: ys) = x ++ '\n' :: ljoin (y :: ys) := rfl

theorem lsplit_ljoin (ls : List (List Char)) (hne : ls ≠ [])
    (h : ∀ l ∈ ls, '\n' ∉ l) : lsplit (ljoin ls) = ls := by
  induction ls with
  | nil => exact absurd rfl hne
  | cons x xs ih =>
    cases xs with
    | nil =>
      show lsplit (ljoin [x]) = [x]
      exact lsplit_no_nl x (h x (List.mem_cons_self x []))
    | cons y ys =>
      rw [ljoin_cons, lsplit_chunk x (h x (List.mem_cons_self x _))]
      rw [ih (by simp) (fun l hl => h l (List.mem_cons_of_mem x hl))]

theorem string_mk_data (s : String) : (⟨s.data⟩ : String) = s := rfl

theorem map_mk_data (ls : List String) :
    (ls.map String.data).map (fun l => (⟨l⟩ : String)) = ls := by
  rw [List.map_map]
  exact List.map_id ls

theorem splitNl_joinNl (ls : List String) (hne : ls ≠ [])
    (h : ∀ l ∈ ls, '\n' ∉ l.data) : splitNl (joinNl ls) = ls := by
  unfold splitNl joinNl
  have hd : (⟨ljoin (ls.map String.data)⟩ : String).data = ljoin (ls.map String.data) := rfl
  rw [hd, lsplit_ljoin (ls.map String.data) (by simpa using hne)
    (by intro l hl
        rcases List.mem_map.mp hl with ⟨s, hs, rfl⟩
        exact h s hs)]
  exact map_mk_data ls

/-! Branch equations for `wstep`. -/

theorem wstep_git (st : WState) (line : String) (h : sStarts line "diff --git " = true) :
    wstep st line = ⟨closeCur st, some ⟨[line], "", [], none⟩, st.oldL, st.newL⟩ := by
  simp [wstep, h]

theorem wstep_skip (st : WState) (line : String)
    (h1 : sStarts line "diff --git " = false) (h2 : st.cur = none) :
    wstep st line = st := by
  simp [wstep, h1, h2]

theorem wstep_marker (st : WState) (c : WCur) (line : String)
    (h1 : sStarts line "diff --git " = false) (h2 : st.cur = some c)
    (h3 : isHeaderMarker line = true) :
    wstep st line = ⟨st.files,
      some { c with
        header := c.header ++ [line],
        path := if sStarts line "+++ b/" then sTrim (sDrop line 6) else c.path },
      st.oldL, st.newL⟩ := by
  simp [wstep, h1, h2, h3]

theorem wstep_hunkhdr (st : WState) (c : WCur) (line : String) (os ol ns nl : Nat)
    (h1 : sStarts line "diff --git " = false) (h2 : st.cur = some c)
    (h3 : isHeaderMarker line = false) (h4 : matchHunkW line = some (os, ol, ns, nl)) :
    wstep st line = ⟨st.files,
      some { c with hunks := closeHunks c, hcur := some ⟨line, os, ol, ns, nl, []⟩ }, os, ns⟩ := by
  simp [wstep, h1, h2, h3, h4]

theorem wstep_hdr2 (st : WState) (c : WCur) (line : String)
    (h1 : sStarts line "diff --git " = false) (h2 : st.cur = some c)
    (h3 : isHeaderMarker line = false) (h4 : matchHunkW line = none) (h5 : c.hcur = none) :
    wstep st line = ⟨st.files, some { c with header := c.header ++ [line] }, st.oldL, st.newL⟩ := by
  simp [wstep, h1, h2, h3, h4, h5]

theorem wstep_add (st : WState) (c : WCur) (hk : DiffHunk) (line : String)
    (h1 : sStarts line "diff --git " = false) (h2 : st.cur = some c)
    (h3 : isHeaderMarker line = false) (h4 : matchHunkW line = none) (h5 : c.hcur = some hk)
    (h6 : sStarts line "+" = true) :
    wstep st line = ⟨st.files,
      some { c with hcur := some { hk with
        lines := hk.lines ++ [⟨.add, line, none, some st.newL, some true⟩] } },
      st.oldL, st.newL + 1⟩ := by
  simp [wstep, h1, h2, h3, h4, h5, h6]

theorem wstep_del (st : WState) (c : WCur) (hk : DiffHunk) (line : String)
    (h1 : sStarts line "diff --git " = false) (h2 : st.cur = some c)
    (h3 : isHeaderMarker line = false) (h4 : matchHunkW line = none) (h5 : c.hcur = some hk)
    (h6 : sStarts line "+" = false) (h7 : sStarts line "-" = true) :
    wstep st line = ⟨st.files,
      some { c with hcur := some { hk with
        lines := hk.lines ++ [⟨.del, line, some st.oldL, none, some true⟩] } },
      st.oldL + 1, st.newL⟩ := by
  simp [wstep, h1, h2, h3, h4, h5, h6, h7]

theorem wstep_ctx (st : WState) (c : WCur) (hk : DiffHunk) (line : String)
    (h1 : sStarts line "diff --git " = false) (h2 : st.cur = some c)
    (h3 : isHeaderMarker line = false) (h4 : matchHunkW line = none) (h5 : c.hcur = some hk)
    (h6 : sStarts line "+" = false) (h7 : sStarts line "-" = false)
    (h8 : sStarts line " " = true) :
    wstep st line = ⟨st.files,
      some { c with hcur := some { hk with
        lines := hk.lines ++ [⟨.ctx, line, some st.oldL, some st.newL, none⟩] } },
      st.oldL + 1, st.newL + 1⟩ := by
  simp [wstep, h1, h2, h3, h4, h5, h6, h7, h8]

theorem wstep_meta (st : WState) (c : WCur) (hk : DiffHunk) (line : String)
    (h1 : sStarts line "diff --git " = false) (h2 : st.cur = some c)
    (h3 : isHeaderMarker line = false) (h4 : matchHunkW line = none) (h5 : c.hcur = some hk)
    (h6 : sStarts line "+" = false) (h7 : sStarts line "-" = false)
    (h8 : sStarts line " " = false) :
    wstep st line = ⟨st.files,
      some { c with hcur := some { hk with
        lines := hk.lines ++ [⟨.meta, line, none, none, none⟩] } },
      st.oldL, st.newL⟩ := by
  simp [wstep, h1, h2, h3, h4, h5, h6, h7, h8]

/-! Counting lemmas. -/

theorem cntOld_nil : cntOld [] = 0 := rfl

theorem cntNew_nil : cntNew [] = 0 := rfl

theorem cntOld_append (a b : List DiffLine) : cntOld (a ++ b) = cntOld a + cntOld b := by
  simp [cntOld, List.filter_append]

theorem cntNew_append (a b : List DiffLine) : cntNew (a ++ b) = cntNew a + cntNew b := by
  simp [cntNew, List.filter_append]

theorem cntOld_single (l : DiffLine) :
    cntOld [l] = (match l.type with | .ctx => 1 | .del => 1 | _ => 0) := by
  cases h : l.type <;> simp [cntOld, List.filter, h]

theorem cntNew_single (l : DiffLine) :
    cntNew [l] = (match l.type with | .ctx => 1 | .add => 1 | _ => 0) := by
  cases h : l.type <;> simp [cntNew, List.filter, h]

/-! Replaying a well-formed hunk body through the scanner extends the open hunk
line by line and advances the two cursors exactly as the body prescribes. -/

theorem fold_hunk_lines (ls : List DiffLine) :
    ∀ (done : List DiffLine) (files : List DiffFile) (hdr : List String) (pa : String)
      (hks : List DiffHunk) (hk : DiffHunk),
      linesWFb (hk.oldStart + cntOld done) (hk.newStart + cntNew done) ls = true →
      (ls.map (·.text)).foldl wstep
        ⟨files, some ⟨hdr, pa, hks, some { hk with lines := done }⟩,
          hk.oldStart + cntOld done, hk.newStart + cntNew done⟩
      = ⟨files, some ⟨hdr, pa, hks, some { hk with lines := done ++ ls }⟩,
          hk.oldStart + cntOld (done ++ ls), hk.newStart + cntNew (done ++ ls)⟩ := by
  induction ls with
  | nil => intro done files hdr pa hks hk _; simp
  | cons l ls ih =>
    intro done files hdr pa hks hk hwf
    unfold linesWFb at hwf
    rw [List.map_cons, List.foldl_cons]
    cases htype : l.type with
    | add =>
      rw [htype] at hwf
      simp only [Bool.and_eq_true, beq_iff_eq, and_assoc] at hwf
      obtain ⟨hlw, ho, hn, hacc, htail⟩ := hwf
      simp only [lineWFb, htype, Bool.and_eq_true, Bool.not_eq_true',
        Option.isNone_iff_eq_none, and_assoc] at hlw
      obtain ⟨hnl, hgit, hhm, hmh, hplus⟩ := hlw
      rw [wstep_add _ _ _ _ hgit rfl hhm hmh rfl hplus]
      have e1 : cntOld (done ++ [l]) = cntOld done := by
        simp [cntOld_append, cntOld_single, htype]
      have e2 : cntNew (done ++ [l]) = cntNew done + 1 := by
        simp [cntNew_append, cntNew_single, htype]
      have hlv : (⟨.add, l.text, none, some (hk.newStart + cntNew done), some true⟩ :
          DiffLine) = l := by
        obtain ⟨t, tx, o9, n9, a9⟩ := l
        simp only at htype ho hn hacc
        rw [htype, ho, hn, hacc]
      have htail2 : linesWFb (hk.oldStart + cntOld (done ++ [l]))
          (hk.newStart + cntNew (done ++ [l])) ls = true := by
        rw [e1, e2, ← Nat.add_assoc]; exact htail
      have hmain := ih (done ++ [l]) files hdr pa hks hk htail2
      rw [e1, e2, ← Nat.add_assoc] at hmain
      simp only [hlv] at *
      rw [hmain]
      simp [List.append_assoc, cntOld_append, cntNew_append]
    | del =>
      rw [htype] at hwf
      simp only [Bool.and_eq_true, beq_iff_eq, and_assoc] at hwf
      obtain ⟨hlw, ho, hn, hacc, htail⟩ := hwf
      simp only [lineWFb, htype, Bool.and_eq_true, Bool.not_eq_true',
        Option.isNone_iff_eq_none, and_assoc] at hlw
      obtain ⟨hnl, hgit, hhm, hmh, hplus, hminus⟩ := hlw
      rw [wstep_del _ _ _ _ hgit rfl hhm hmh rfl hplus hminus]
      have e1 : cntOld (done ++ [l]) = cntOld done + 1 := by
        simp [cntOld_append, cntOld_single, htype]
      have e2 : cntNew (done ++ [l]) = cntNew done := by
        simp [cntNew_append, cntNew_single, htype]
      have hlv : (⟨.del, l.text, some (hk.oldStart + cntOld done), none, some true⟩ :
          DiffLine) = l := by
        obtain ⟨t, tx, o9, n9, a9⟩ := l
        simp only at htype ho hn hacc
        rw [htype, ho, hn, hacc]
      have htail2 : linesWFb (hk.oldStart + cntOld (done ++ [l]))
          (hk.newStart + cntNew (done ++ [l])) ls = true := by
        rw [e1, e2, ← Nat.add_assoc]; exact htail
      have hmain := ih (done ++ [l]) files hdr pa hks hk htail2
      rw [e1, e2, ← Nat.add_assoc] at hmain
      simp only [hlv] at *
      rw [hmain]
      simp [List.append_assoc, cntOld_append, cntNew_append]
    | ctx =>
      rw [htype] at hwf
      simp only [Bool.and_eq_true, beq_iff_eq, and_assoc] at hwf
      obtain ⟨hlw, ho, hn, hacc, htail⟩ := hwf
      simp only [lineWFb, htype, Bool.and_eq_true, Bool.not_eq_true',
        Option.isNone_iff_eq_none, and_assoc] at hlw
      obtain ⟨hnl, hgit, hhm, hmh, hplus, hminus, hspace⟩ := hlw
      rw [wstep_ctx _ _ _ _ hgit rfl hhm hmh rfl hplus hminus hspace]
      have e1 : cntOld (done ++ [l]) = cntOld done + 1 := by
        simp [cntOld_append, cntOld_single, htype]
      have e2 : cntNew (done ++ [l]) = cntNew done + 1 := by
        simp [cntNew_append, cntNew_single, htype]
      have hlv : (⟨.ctx, l.text, some (hk.oldStart + cntOld done),
          some (hk.newStart + cntNew done), none⟩ : DiffLine) = l := by
        obtain ⟨t, tx, o9, n9, a9⟩ := l
        simp only at htype ho hn hacc
        rw [htype, ho, hn, hacc]
      have htail2 : linesWFb (hk.oldStart + cntOld (done ++ [l]))
          (hk.newStart + cntNew (done ++ [l])) ls = true := by
        rw [e1, e2, ← Nat.add_assoc, ← Nat.add_assoc]; exact htail
      have hmain := ih (done ++ [l]) files hdr pa hks hk htail2
      rw [e1, e2, ← Nat.add_assoc, ← Nat.add_assoc] at hmain
      simp only [hlv] at *
      rw [hmain]
      simp [List.append_assoc, cntOld_append, cntNew_append]
    | meta =>
      rw [htype] at hwf
      simp only [Bool.and_eq_true, beq_iff_eq, and_assoc] at hwf
      obtain ⟨hlw, ho, hn, hacc, htail⟩ := hwf
      simp only [lineWFb, htype, Bool.and_eq_true, Bool.not_eq_true',
        Option.isNone_iff_eq_none, and_assoc] at hlw
      obtain ⟨hnl, hgit, hhm, hmh, hplus, hminus, hspace⟩ := hlw
      rw [wstep_meta _ _ _ _ hgit rfl hhm hmh rfl hplus hminus hspace]
      have e1 : cntOld (done ++ [l]) = cntOld done := by
        simp [cntOld_append, cntOld_single, htype]
      have e2 : cntNew (done ++ [l]) = cntNew done := by
        simp [cntNew_append, cntNew_single, htype]
      have hlv : (⟨.meta, l.text, none, none, none⟩ : DiffLine) = l := by
        obtain ⟨t, tx, o9, n9, a9⟩ := l
        simp only at htype ho hn hacc
        rw [htype, ho, hn, hacc]
      have htail2 : linesWFb (hk.oldStart + cntOld (done ++ [l]))
          (hk.newStart + cntNew (done ++ [l])) ls = true := by
        rw [e1, e2]; exact htail
      have hmain := ih (done ++ [l]) files hdr pa hks hk htail2
      rw [e1, e2] at hmain
      simp only [hlv] at *
      rw [hmain]
      simp [List.append_assoc, cntOld_append, cntNew_append]

end Spec2Proof

namespace Spec2Proof

/-! Replaying one whole rendered hunk (header line plus body) opens it, closes
the previously open hunk and leaves the cursors at the hunk's final values. -/

theorem fold_hunk (hk : DiffHunk) (files : List DiffFile) (hdr : List String) (pa : String)
    (hks : List DiffHunk) (hc0 : Option DiffHunk) (o0 n0 : Nat) (hwf : hunkWFb hk = true) :
    (renderHunkO hk).foldl wstep ⟨files, some ⟨hdr, pa, hks, hc0⟩, o0, n0⟩
    = ⟨files, some ⟨hdr, pa, closeHunks ⟨hdr, pa, hks, hc0⟩, some hk⟩,
        hk.oldStart + cntOld hk.lines, hk.newStart + cntNew hk.lines⟩ := by
  unfold hunkWFb at hwf
  simp only [Bool.and_eq_true, Bool.not_eq_true', and_assoc] at hwf
  obtain ⟨hnl, hgit, hmark, hmm, hlines, hchg⟩ := hwf
  cases hmatch : matchHunkW hk.header with
  | none => rw [hmatch] at hmm; simp at hmm
  | some v =>
    obtain ⟨a, b, c, d⟩ := v
    rw [hmatch] at hmm
    simp only [Bool.and_eq_true, beq_iff_eq, and_assoc] at hmm
    obtain ⟨ha, hb, hc, hd⟩ := hmm
    subst ha hb hc hd
    rw [renderHunkO, List.foldl_cons]
    rw [wstep_hunkhdr _ _ _ _ _ _ _ hgit rfl hmark hmatch]
    have hinit := fold_hunk_lines hk.lines [] files hdr pa
      (closeHunks ⟨hdr, pa, hks, hc0⟩) hk
      (by rw [cntOld_nil, cntNew_nil, Nat.add_zero, Nat.add_zero]; exact hlines)
    rw [cntOld_nil, cntNew_nil, Nat.add_zero, Nat.add_zero, List.nil_append] at hinit
    have hmk : ({ hk with lines := [] } : DiffHunk)
        = ⟨hk.header, hk.oldStart, hk.oldLines, hk.newStart, hk.newLines, []⟩ := rfl
    rw [← hmk]
    exact hinit

/-- Replaying a nonempty rendered hunk list: all hunks but the last are closed
in order after the previously accumulated ones, the last stays open. -/
theorem fold_hunks (hs1 : List DiffHunk) :
    ∀ (hlast : DiffHunk) (files : List DiffFile) (hdr : List String) (pa : String)
      (hks : List DiffHunk) (hc0 : Option DiffHunk) (o0 n0 : Nat),
      (hs1 ++ [hlast]).all hunkWFb = true →
      (((hs1 ++ [hlast]).map renderHunkO).flatten).foldl wstep
        ⟨files, some ⟨hdr, pa, hks, hc0⟩, o0, n0⟩
      = ⟨files, some ⟨hdr, pa, closeHunks ⟨hdr, pa, hks, hc0⟩ ++ hs1, some hlast⟩,
          hlast.oldStart + cntOld hlast.lines, hlast.newStart + cntNew hlast.lines⟩ := by
  induction hs1 with
  | nil =>
    intro hlast files hdr pa hks hc0 o0 n0 hall
    simp only [List.nil_append, List.map_cons, List.map_nil, List.flatten_cons,
      List.flatten_nil, List.append_nil, List.all_cons, List.all_nil,
      Bool.and_eq_true, Bool.and_true] at hall ⊢
    rw [fold_hunk hlast files hdr pa hks hc0 o0 n0 hall]
  | cons h0 hs ih =>
    intro hlast files hdr pa hks hc0 o0 n0 hall
    simp only [List.cons_append, List.all_cons, Bool.and_eq_true] at hall
    obtain ⟨h0wf, hrest⟩ := hall
    simp only [List.cons_append, List.map_cons, List.flatten_cons]
    rw [List.foldl_append]
    rw [fold_hunk h0 files hdr pa hks hc0 o0 n0 h0wf]
    have := ih hlast files hdr pa (closeHunks ⟨hdr, pa, hks, hc0⟩) (some h0)
      (h0.oldStart + cntOld h0.lines) (h0.newStart + cntNew h0.lines)
      (by simpa using hrest)
    rw [this]
    simp [closeHunks, List.append_assoc]

/-- Replaying the post-marker header lines appends them to the open file header
and folds the `+++ b/` path updates; nothing else changes. -/
theorem fold_header_rest (rest : List String) :
    ∀ (files : List DiffFile) (hdr0 : List String) (pa0 : String)
      (hks0 : List DiffHunk) (o0 n0 : Nat),
      rest.all (fun l => noNl l && !sStarts l "diff --git " && (matchHunkW l).isNone) = true →
      rest.foldl wstep ⟨files, some ⟨hdr0, pa0, hks0, none⟩, o0, n0⟩
      = ⟨files, some ⟨hdr0 ++ rest, pathFold pa0 rest, hks0, none⟩, o0, n0⟩ := by
  induction rest with
  | nil => intro files hdr0 pa0 hks0 o0 n0 _; simp [pathFold]
  | cons l rest ih =>
    intro files hdr0 pa0 hks0 o0 n0 hall
    simp only [List.all_cons, Bool.and_eq_true, Bool.not_eq_true',
      Option.isNone_iff_eq_none, and_assoc] at hall
    obtain ⟨hnl, hgit, hmh, hrest⟩ := hall
    rw [List.foldl_cons]
    have hstep : pathFold pa0 (l :: rest)
        = pathFold (if sStarts l "+++ b/" then sTrim (sDrop l 6) else pa0) rest := rfl
    by_cases hmark : isHeaderMarker l
    · rw [wstep_marker _ _ _ hgit rfl hmark]
      have := ih files (hdr0 ++ [l]) (if sStarts l "+++ b/" then sTrim (sDrop l 6) else pa0)
        hks0 o0 n0 hrest
      rw [this, hstep]
      simp [List.append_assoc]
    · have hmark2 : isHeaderMarker l = false := by simpa using hmark
      have hpb : sStarts l "+++ b/" = false := by
        cases hx : sStarts l "+++ b/" with
        | false => rfl
        | true => exact absurd (isHeaderMarker_of_pppb l hx) (by simp [hmark2])
      rw [wstep_hdr2 _ _ _ hgit rfl hmark2 hmh rfl]
      have := ih files (hdr0 ++ [l]) pa0 hks0 o0 n0 hrest
      rw [this, hstep, hpb]
      simp [List.append_assoc]

end Spec2Proof

namespace Spec2Proof

/-- Replaying one whole rendered file block from any state flushes whatever file
was open and leaves the block's own data as the current file; closing that
current file recovers the block exactly. -/
theorem fold_file (f : DiffFile) (st : WState) (hwf : fileWFb f = true) :
    ∃ (c : WCur) (o n : Nat),
      (renderFileO f).foldl wstep st = ⟨closeCur st, some c, o, n⟩ ∧
      (⟨c.header, c.path, closeHunks c⟩ : DiffFile) = f := by
  obtain ⟨hdr, pa, hunks⟩ := f
  cases hhd : hdr with
  | nil => rw [fileWFb] at hwf; rw [hhd] at hwf; simp at hwf
  | cons first rest =>
    subst hhd
    rw [fileWFb] at hwf
    simp only [Bool.and_eq_true, beq_iff_eq, Bool.not_eq_true', and_assoc] at hwf
    obtain ⟨hgit, hnl, hall, hpath, hne, hhunks⟩ := hwf
    rcases List.eq_nil_or_concat' hunks with rfl | ⟨hs1, hlast, rfl⟩
    · simp at hne
    · refine ⟨⟨first :: rest, pathFold "" rest, hs1, some hlast⟩,
        hlast.oldStart + cntOld hlast.lines, hlast.newStart + cntNew hlast.lines, ?_, ?_⟩
      · show ((first :: rest) ++ ((hs1 ++ [hlast]).map renderHunkO).flatten).foldl wstep st = _
        rw [List.cons_append, List.foldl_cons, wstep_git st first hgit, List.foldl_append]
        rw [fold_header_rest rest (closeCur st) [first] "" [] st.oldL st.newL hall]
        rw [List.singleton_append]
        rw [fold_hunks hs1 hlast (closeCur st) (first :: rest) (pathFold "" rest) [] none
          st.oldL st.newL hhunks]
        rfl
      · show (⟨first :: rest, pathFold "" rest, closeHunks _⟩ : DiffFile) = _
        rw [hpath]
        simp [closeHunks]

/-- Replaying a whole rendered well-formed document appends its files, in order,
after whatever the state already held. -/
theorem fold_doc (docs : List DiffFile) :
    ∀ st : WState, docs.all fileWFb = true →
      closeCur ((renderLinesO docs).foldl wstep st) = closeCur st ++ docs := by
  induction docs with
  | nil => intro st _; simp [renderLinesO]
  | cons f t ih =>
    intro st hall
    simp only [List.all_cons, Bool.and_eq_true] at hall
    obtain ⟨hf, ht⟩ := hall
    have hsplit : renderLinesO (f :: t) = renderFileO f ++ renderLinesO t := rfl
    rw [hsplit, List.foldl_append]
    obtain ⟨c, o, n, heq, hflush⟩ := fold_file f st hf
    rw [heq]
    have := ih ⟨closeCur st, some c, o, n⟩ ht
    rw [this]
    simp only [closeCur, hflush]
    simp [List.append_assoc]

/-- Extract the per-line conditions from a well-formed hunk body. -/
theorem linesWFb_mem (o n : Nat) (ls : List DiffLine) (h : linesWFb o n ls = true) :
    ∀ l ∈ ls, lineWFb l = true := by
  induction ls generalizing o n with
  | nil => intro l hl; simp at hl
  | cons x xs ih =>
    unfold linesWFb at h
    intro l hl
    rcases List.mem_cons.mp hl with rfl | hmem
    · cases hx : l.type <;> rw [hx] at h <;>
        simp only [Bool.and_eq_true] at h <;> exact h.1
    · cases hx : x.type <;> rw [hx] at h <;>
        simp only [Bool.and_eq_true, and_assoc] at h <;>
        exact ih _ _ h.2.2.2.2 l hmem

/-- Newline-freeness transfer from the boolean test. -/
theorem noNl_spec (s : String) (h : noNl s = true) : '\n' ∉ s.data := by
  simp only [noNl, List.all_eq_true, decide_eq_true_eq] at h
  intro hmem
  exact h '\n' hmem rfl

/-- Every rendered line of a well-formed document is newline-free. -/
theorem renderLines_noNl (docs : List DiffFile) (h : docs.all fileWFb = true) :
    ∀ l ∈ renderLinesO docs, '\n' ∉ l.data := by
  intro l hl
  simp only [renderLinesO, List.mem_flatten, List.mem_map] at hl
  obtain ⟨_, ⟨f, hf, rfl⟩, hlf⟩ := hl
  have hfwf : fileWFb f = true := by
    rw [List.all_eq_true] at h
    exact h f hf
  obtain ⟨hdr, pa, hunks⟩ := f
  cases hhd : hdr with
  | nil => rw [fileWFb] at hfwf; rw [hhd] at hfwf; simp at hfwf
  | cons first rest =>
    subst hhd
    rw [fileWFb] at hfwf
    simp only [Bool.and_eq_true, beq_iff_eq, Bool.not_eq_true', and_assoc] at hfwf
    obtain ⟨hgit, hnl, hall, hpath, hne, hhunks⟩ := hfwf
    simp only [renderFileO, List.mem_append, List.mem_flatten, List.mem_map] at hlf
    rcases hlf with hhdr | ⟨_, ⟨hk, hhk, rfl⟩, hlh⟩
    · rcases List.mem_cons.mp hhdr with rfl | hrest
      · exact noNl_spec l hnl
      · rw [List.all_eq_true] at hall
        have := hall l hrest
        simp only [Bool.and_eq_true] at this
        exact noNl_spec l this.1.1
    · have hkwf : hunkWFb hk = true := by
        rw [List.all_eq_true] at hhunks
        exact hhunks hk hhk
      unfold hunkWFb at hkwf
      simp only [Bool.and_eq_true, Bool.not_eq_true', and_assoc] at hkwf
      obtain ⟨hknl, _, _, _, hklines, _⟩ := hkwf
      simp only [renderHunkO, List.mem_cons, List.mem_map] at hlh
      rcases hlh with rfl | ⟨dl, hdl, rfl⟩
      · exact noNl_spec _ hknl
      · have := linesWFb_mem _ _ _ hklines dl hdl
        simp only [lineWFb, Bool.and_eq_true, and_assoc] at this
        exact noNl_spec _ this.1

/-- Rendered lines of a well-formed nonempty document form a nonempty list. -/
theorem renderLines_ne_nil (f : DiffFile) (t : List DiffFile) (h : fileWFb f = true) :
    renderLinesO (f :: t) ≠ [] := by
  obtain ⟨hdr, pa, hunks⟩ := f
  cases hhd : hdr with
  | nil => rw [fileWFb] at h; rw [hhd] at h; simp at h
  | cons first rest =>
    subst hhd
    simp [renderLinesO, renderFileO]

/-- Parsing the rendering of a well-formed document recovers it exactly. -/
theorem parse_render (docs : List DiffFile) (h : docWFb docs = true) :
    parseUnifiedDiff (renderOrig docs) = docs := by
  cases docs with
  | nil => decide
  | cons f t =>
    have hf : fileWFb f = true := by
      rw [docWFb, List.all_eq_true] at h
      exact h f (List.mem_cons_self f t)
    unfold parseUnifiedDiff renderOrig parseLinesW
    rw [splitNl_joinNl _ (renderLines_ne_nil f t hf) (renderLines_noNl _ h)]
    rw [fold_doc (f :: t) ⟨[], none, 0, 0⟩ h]
    rfl

end Spec2Proof

namespace Spec2Proof

/-! Reconstruction side: on a fully accepted well-formed document the filter
keeps every line and every hunk survives, so `buildUnifiedDiff` is exactly the
rendering with recomputed headers. -/

theorem keptW_filter_all (o n : Nat) (ls : List DiffLine) (h : linesWFb o n ls = true) :
    (ls.filter fun l =>
      if l.type = .add || l.type = .del then l.accepted ≠ some false else true) = ls := by
  induction ls generalizing o n with
  | nil => rfl
  | cons x xs ih =>
    unfold linesWFb at h
    cases hx : x.type <;> rw [hx] at h <;>
      simp only [Bool.and_eq_true, beq_iff_eq, and_assoc] at h
    · rw [List.filter_cons_of_pos (by simp [hx, h.2.2.2.1])]
      rw [ih _ _ h.2.2.2.2]
    · rw [List.filter_cons_of_pos (by simp [hx, h.2.2.2.1])]
      rw [ih _ _ h.2.2.2.2]
    · rw [List.filter_cons_of_pos (by simp [hx])]
      rw [ih _ _ h.2.2.2.2]
    · rw [List.filter_cons_of_pos (by simp [hx])]
      rw [ih _ _ h.2.2.2.2]

theorem keptW_of_wf (h : DiffHunk) (hwf : hunkWFb h = true) : keptW h = h.lines := by
  unfold hunkWFb at hwf
  simp only [Bool.and_eq_true, and_assoc] at hwf
  exact keptW_filter_all h.oldStart h.newStart h.lines hwf.2.2.2.2.1

theorem buildHunkW_of_wf (h : DiffHunk) (hwf : hunkWFb h = true) :
    buildHunkW h = some (mkRecompHeaderW h, h.lines) := by
  have hk := keptW_of_wf h hwf
  have hch : hasChangeLine h.lines = true := by
    unfold hunkWFb at hwf
    simp only [Bool.and_eq_true, and_assoc] at hwf
    exact hwf.2.2.2.2.2
  simp only [buildHunkW, hk, hch, if_true]
  rfl

theorem buildFileW_of_wf (hs : List DiffHunk) (hwf : hs.all hunkWFb = true) :
    hs.filterMap buildHunkW = hs.map fun h => (mkRecompHeaderW h, h.lines) := by
  induction hs with
  | nil => rfl
  | cons h t ih =>
    simp only [List.all_cons, Bool.and_eq_true] at hwf
    rw [List.filterMap_cons, buildHunkW_of_wf h hwf.1, List.map_cons, ih hwf.2]

theorem buildLinesW_acc (docs : List DiffFile) :
    ∀ out : List String, docs.all fileWFb = true →
      docs.foldl
        (fun out f =>
          let hs := buildFileW f
          if hs.isEmpty then out
          else out ++ f.header ++ (hs.map fun p => p.1 :: p.2.map (·.text)).flatten)
        out
      = out ++ renderLinesR docs := by
  induction docs with
  | nil => intro out _; simp [renderLinesR]
  | cons f t ih =>
    intro out hall
    simp only [List.all_cons, Bool.and_eq_true] at hall
    obtain ⟨hf, ht⟩ := hall
    have hne : f.hunks ≠ [] := by
      obtain ⟨hdr, pa, hunks⟩ := f
      cases hhd : hdr with
      | nil => rw [fileWFb] at hf; rw [hhd] at hf; simp at hf
      | cons first rest =>
        subst hhd
        rw [fileWFb] at hf
        simp only [Bool.and_eq_true, and_assoc] at hf
        have h5 := hf.2.2.2.2.1
        intro hnil
        have hnil2 : hunks = [] := hnil
        rw [hnil2] at h5
        simp at h5
    have hallh : f.hunks.all hunkWFb = true := by
      obtain ⟨hdr, pa, hunks⟩ := f
      cases hhd : hdr with
      | nil => rw [fileWFb] at hf; rw [hhd] at hf; simp at hf
      | cons first rest =>
        subst hhd
        rw [fileWFb] at hf
        simp only [Bool.and_eq_true, and_assoc] at hf
        exact hf.2.2.2.2.2
    rw [List.foldl_cons]
    have hfile : buildFileW f = f.hunks.map fun h => (mkRecompHeaderW h, h.lines) :=
      buildFileW_of_wf f.hunks hallh
    have hfe : (buildFileW f).isEmpty = false := by
      rw [hfile]
      cases hu : f.hunks with
      | nil => exact absurd hu hne
      | cons a b => simp
    simp only [hfe]
    rw [ih _ ht]
    have hr : (buildFileW f).map (fun p => p.1 :: p.2.map (·.text))
        = f.hunks.map renderHunkR := by
      rw [hfile, List.map_map]
      rfl
    show (if false = true then out else
      out ++ f.header ++ ((buildFileW f).map fun p => p.1 :: p.2.map (·.text)).flatten)
        ++ renderLinesR t = out ++ renderLinesR (f :: t)
    rw [if_neg (by simp), hr]
    have : renderLinesR (f :: t) = renderFileR f ++ renderLinesR t := rfl
    rw [this, renderFileR]
    simp [List.append_assoc]

theorem build_render (docs : List DiffFile) (h : docWFb docs = true) :
    buildLinesW docs = renderLinesR docs := by
  unfold buildLinesW
  rw [buildLinesW_acc docs [] h]
  rfl

end Spec2Proof

namespace Spec2Proof

/-! Claim C1: round trip of a valid unified diff through parse and build. -/

/-- Example document used to witness the round-trip theorem. -/
def c1doc : List DiffFile :=
  [⟨["diff --git a/a.txt b/a.txt", "--- a/a.txt", "+++ b/a.txt"], "a.txt",
     [⟨"@@ -1,2 +1,2 @@", 1, 2, 1, 2,
        [⟨.ctx, " keep", some 1, some 1, none⟩,
         ⟨.del, "-old", some 2, none, some true⟩,
         ⟨.add, "+new", none, some 2, some true⟩]⟩,
      ⟨"@@ -9,1 +9,2 @@", 9, 1, 9, 2,
        [⟨.ctx, " base", some 9, some 9, none⟩,
         ⟨.add, "+tail", none, some 10, some true⟩]⟩]⟩,
   ⟨["diff --git a/b.txt b/b.txt", "+++ b/b.txt"], "b.txt",
     [⟨"@@ -3 +3 @@", 3, 1, 3, 1,
        [⟨.del, "-gone", some 3, none, some true⟩]⟩]⟩]

/-- Unified diff that deletes the single line `-- x` from a one-line file. Its
hunk body line `--- x` collides with the header-marker test of the scanner. -/
def c1cex : String :=
  "diff --git a/f b/f\n--- a/f\n+++ b/f\n@@ -1,1 +0,0 @@\n--- x"

/-- C1 (amended): for every diff that is the rendering of a well-formed
document — every file block has at least one hunk, every hunk has at least one
add/delete line, and no hunk body line collides with the `diff --git `,
header-marker or hunk-header patterns — `build(parse(D))` reproduces `D`
exactly except that each hunk header line is replaced by the recomputed header
`@@ -oldStart,oldCount +newStart,newCount @@`; in particular parsing recovers
the document with all acceptance flags at their parse-time default. -/
theorem C1_round_trip (docs : List DiffFile) (h : docWFb docs = true) :
    parseUnifiedDiff (renderOrig docs) = docs ∧
    buildUnifiedDiff (parseUnifiedDiff (renderOrig docs)) = renderRecomp docs := by
  have hp := parse_render docs h
  refine ⟨hp, ?_⟩
  rw [hp]
  unfold buildUnifiedDiff renderRecomp
  rw [build_render docs h]

/-- Witness for C1 at a concrete two-file document. -/
theorem C1_round_trip_witness :
    docWFb c1doc = true ∧
    (parseUnifiedDiff (renderOrig c1doc) = c1doc ∧
     buildUnifiedDiff (parseUnifiedDiff (renderOrig c1doc)) = renderRecomp c1doc) :=
  ⟨by decide, C1_round_trip c1doc (by decide)⟩

/-- Counterexample to C1 as stated: `c1cex` is a valid unified diff (it deletes
the line `-- x`), but its hunk body line `--- x` is captured by the
header-marker test, so the hunk loses its only delete line, is dropped as
change-free, and the whole round trip returns the empty string instead of the
diff's semantic content. -/
theorem C1_counterexample :
    buildUnifiedDiff (parseUnifiedDiff c1cex) = "" ∧
    parseUnifiedDiff c1cex ≠ [] ∧ c1cex ≠ "" := by decide

/-! Claim C4: recomputed hunk headers keep the original starts. -/

/-- Old-side count exactly as the specification words it: kept context plus
kept delete lines. -/
def oldCountSpec (ls : List DiffLine) : Nat :=
  (ls.filter fun l => l.type = .ctx).length + (ls.filter fun l => l.type = .del).length

/-- New-side count exactly as the specification words it: kept context plus
kept add lines. -/
def newCountSpec (ls : List DiffLine) : Nat :=
  (ls.filter fun l => l.type = .ctx).length + (ls.filter fun l => l.type = .add).length

/-- Specification-level per-hunk reconstruction: the emitted header takes its
`oldStart`/`newStart` directly from the original parsed hunk and only the two
counts are recomputed from the kept lines. -/
def buildHunkSpec (h : DiffHunk) : Option (String × List DiffLine) :=
  let kept := keptW h
  if hasChangeLine kept then
    some (mkHeaderW h.oldStart (oldCountSpec kept) h.newStart (newCountSpec kept), kept)
  else none

/-- Specification-level per-file reconstruction: each hunk is handled
independently, so no later hunk is renumbered for earlier drops. -/
def buildFileSpec (f : DiffFile) : List (String × List DiffLine) :=
  f.hunks.filterMap buildHunkSpec

/-- Specification-level output lines. -/
def buildLinesSpec (files : List DiffFile) : List String :=
  files.foldl
    (fun out f =>
      let hs := buildFileSpec f
      if hs.isEmpty then out
      else out ++ f.header ++ (hs.map fun p => p.1 :: p.2.map (·.text)).flatten)
    []

theorem cnt_split_old (ls : List DiffLine) :
    (ls.filter fun l => l.type = .ctx || l.type = .del).length = oldCountSpec ls := by
  unfold oldCountSpec
  induction ls with
  | nil => rfl
  | cons x xs ih => cases hx : x.type <;> simp [List.filter_cons, hx, ih] <;> omega

theorem cnt_split_new (ls : List DiffLine) :
    (ls.filter fun l => l.type = .ctx || l.type = .add).length = newCountSpec ls := by
  unfold newCountSpec
  induction ls with
  | nil => rfl
  | cons x xs ih => cases hx : x.type <;> simp [List.filter_cons, hx, ih] <;> omega

/-- C4: for every surviving hunk the emitted header is
`@@ -oldStart,oldCount +newStart,newCount @@` with `oldCount` the kept
context-plus-delete count, `newCount` the kept context-plus-add count, and the
two starts copied unchanged from the original hunk; reconstruction treats each
hunk independently, so later hunks are never renumbered for earlier drops. -/
theorem C4_recomputed_headers :
    (∀ h : DiffHunk, buildHunkW h = buildHunkSpec h) ∧
    (∀ files : List DiffFile, buildLinesW files = buildLinesSpec files) := by
  have h1 : ∀ h : DiffHunk, buildHunkW h = buildHunkSpec h := by
    intro h
    simp only [buildHunkW, buildHunkSpec, cnt_split_old, cnt_split_new]
  refine ⟨h1, ?_⟩
  intro files
  have h2 : buildFileW = buildFileSpec := by
    funext f
    unfold buildFileW buildFileSpec
    rw [funext h1]
  unfold buildLinesW buildLinesSpec
  rw [h2]

end Spec2Proof

namespace Spec2Proof

/-! Claim C5: change-free hunks and hunk-free files vanish from the output. -/

theorem buildHunkW_none (h : DiffHunk) (hch : hasChangeLine (keptW h) = false) :
    buildHunkW h = none := by
  simp [buildHunkW, hch]

/-- One build step decomposes into the empty-accumulator step. -/
theorem buildLines_step_out (out : List String) (f : DiffFile) :
    (let hs := buildFileW f
     if hs.isEmpty then out
     else out ++ f.header ++ (hs.map fun p => p.1 :: p.2.map (·.text)).flatten)
    = out ++
      (let hs := buildFileW f
       if hs.isEmpty then []
       else f.header ++ (hs.map fun p => p.1 :: p.2.map (·.text)).flatten) := by
  cases he : (buildFileW f).isEmpty <;> simp [he, List.append_assoc]

theorem buildLinesW_out (files : List DiffFile) :
    ∀ out : List String,
      files.foldl
        (fun out f =>
          let hs := buildFileW f
          if hs.isEmpty then out
          else out ++ f.header ++ (hs.map fun p => p.1 :: p.2.map (·.text)).flatten)
        out
      = out ++ buildLinesW files := by
  induction files with
  | nil => intro out; simp [buildLinesW]
  | cons f t ih =>
    intro out
    rw [List.foldl_cons, buildLines_step_out out f]
    rw [ih]
    have : buildLinesW (f :: t) =
        (let hs := buildFileW f
         if hs.isEmpty then []
         else f.header ++ (hs.map fun p => p.1 :: p.2.map (·.text)).flatten)
        ++ buildLinesW t := by
      unfold buildLinesW
      rw [List.foldl_cons, buildLines_step_out [] f, ih]
      rw [List.nil_append]
      rfl
    rw [this, List.append_assoc]

theorem buildLinesW_append (a b : List DiffFile) :
    buildLinesW (a ++ b) = buildLinesW a ++ buildLinesW b := by
  unfold buildLinesW
  rw [List.foldl_append, buildLinesW_out b (List.foldl _ [] a)]
  rfl

/-- C5: a hunk whose kept lines carry no add/delete line is dropped from the
reconstruction even though its context lines existed, and a file whose hunks
are all dropped contributes neither its header lines nor any hunk. -/
theorem C5_drop_empty :
    (∀ (files1 files2 : List DiffFile) (hdr : List String) (pa : String)
       (pre post : List DiffHunk) (h : DiffHunk),
       hasChangeLine (keptW h) = false →
       buildUnifiedDiff (files1 ++ ⟨hdr, pa, pre ++ h :: post⟩ :: files2)
         = buildUnifiedDiff (files1 ++ ⟨hdr, pa, pre ++ post⟩ :: files2)) ∧
    (∀ (files1 files2 : List DiffFile) (f : DiffFile),
       (∀ h ∈ f.hunks, hasChangeLine (keptW h) = false) →
       buildUnifiedDiff (files1 ++ f :: files2) = buildUnifiedDiff (files1 ++ files2)) := by
  constructor
  · intro files1 files2 hdr pa pre post h hch
    have hfile : buildFileW ⟨hdr, pa, pre ++ h :: post⟩ = buildFileW ⟨hdr, pa, pre ++ post⟩ := by
      unfold buildFileW
      show (pre ++ h :: post).filterMap buildHunkW = (pre ++ post).filterMap buildHunkW
      rw [List.filterMap_append, List.filterMap_append, List.filterMap_cons,
        buildHunkW_none h hch]
    unfold buildUnifiedDiff
    rw [buildLinesW_append, buildLinesW_append]
    have hmid : buildLinesW [(⟨hdr, pa, pre ++ h :: post⟩ : DiffFile)]
        = buildLinesW [(⟨hdr, pa, pre ++ post⟩ : DiffFile)] := by
      unfold buildLinesW
      simp only [List.foldl_cons, List.foldl_nil, hfile]
    have hsplit1 : buildLinesW ((⟨hdr, pa, pre ++ h :: post⟩ : DiffFile) :: files2)
        = buildLinesW [⟨hdr, pa, pre ++ h :: post⟩] ++ buildLinesW files2 :=
      buildLinesW_append [⟨hdr, pa, pre ++ h :: post⟩] files2
    have hsplit2 : buildLinesW ((⟨hdr, pa, pre ++ post⟩ : DiffFile) :: files2)
        = buildLinesW [⟨hdr, pa, pre ++ post⟩] ++ buildLinesW files2 :=
      buildLinesW_append [⟨hdr, pa, pre ++ post⟩] files2
    rw [hsplit1, hsplit2, hmid]
  · intro files1 files2 f hall
    have hfile : buildFileW f = [] := by
      unfold buildFileW
      rw [List.filterMap_eq_nil_iff]
      intro h hh
      exact buildHunkW_none h (hall h hh)
    unfold buildUnifiedDiff
    rw [buildLinesW_append, buildLinesW_append]
    have hmid : buildLinesW [f] = [] := by
      unfold buildLinesW
      simp [hfile]
    have hsplit1 : buildLinesW (f :: files2) = buildLinesW [f] ++ buildLinesW files2 :=
      buildLinesW_append [f] files2
    rw [hsplit1, hmid]
    rfl

/-- Witness for C5: a context-only-after-rejection hunk disappears, and a file
whose only hunk is rejected disappears with its header. -/
theorem C5_drop_empty_witness :
    (hasChangeLine (keptW ⟨"@@ -1,2 +1,1 @@", 1, 2, 1, 1,
        [⟨.ctx, " k", some 1, some 1, none⟩, ⟨.del, "-d", some 2, none, some false⟩]⟩) = false ∧
      buildUnifiedDiff [⟨["diff --git a/a b/a", "+++ b/a"], "a",
          [⟨"@@ -1,2 +1,1 @@", 1, 2, 1, 1,
            [⟨.ctx, " k", some 1, some 1, none⟩, ⟨.del, "-d", some 2, none, some false⟩]⟩,
           ⟨"@@ -7,1 +7,2 @@", 7, 1, 7, 2,
            [⟨.add, "+x", none, some 7, some true⟩]⟩]⟩]
        = buildUnifiedDiff [⟨["diff --git a/a b/a", "+++ b/a"], "a",
          [⟨"@@ -7,1 +7,2 @@", 7, 1, 7, 2,
            [⟨.add, "+x", none, some 7, some true⟩]⟩]⟩]) ∧
    buildUnifiedDiff [⟨["diff --git a/a b/a", "+++ b/a"], "a",
        [⟨"@@ -1,2 +1,1 @@", 1, 2, 1, 1,
          [⟨.ctx, " k", some 1, some 1, none⟩, ⟨.del, "-d", some 2, none, some false⟩]⟩]⟩]
      = buildUnifiedDiff ([] : List DiffFile) :=
  ⟨⟨by decide,
    C5_drop_empty.1 [] [] ["diff --git a/a b/a", "+++ b/a"] "a" []
      [⟨"@@ -7,1 +7,2 @@", 7, 1, 7, 2, [⟨.add, "+x", none, some 7, some true⟩]⟩]
      ⟨"@@ -1,2 +1,1 @@", 1, 2, 1, 1,
        [⟨.ctx, " k", some 1, some 1, none⟩, ⟨.del, "-d", some 2, none, some false⟩]⟩
      (by decide)⟩,
   C5_drop_empty.2 [] []
     ⟨["diff --git a/a b/a", "+++ b/a"], "a",
       [⟨"@@ -1,2 +1,1 @@", 1, 2, 1, 1,
         [⟨.ctx, " k", some 1, some 1, none⟩, ⟨.del, "-d", some 2, none, some false⟩]⟩]⟩
     (by decide)⟩

end Spec2Proof

namespace Spec2Proof

/-! Claim C6: how lines are classified once a hunk is open. -/

/-- Leading-character classification of a hunk body line, with the cursor
values the scanner would attach. -/
def classifyBody (line : String) (o n : Nat) : DiffLine :=
  if sStarts line "+" then ⟨.add, line, none, some n, some true⟩
  else if sStarts line "-" then ⟨.del, line, some o, none, some true⟩
  else if sStarts line " " then ⟨.ctx, line, some o, some n, none⟩
  else ⟨.meta, line, none, none, none⟩

/-- Diff whose hunk body contains the delete line `--- x` (deleting the text
`-- x`) after a context line. -/
def c6cex : String := "diff --git a/f b/f\n+++ b/f\n@@ -1,2 +1,1 @@\n ctx\n--- x"

/-- Counterexample to C6 as stated: in `c6cex` the hunk is already open when
the line `--- x` arrives, yet the parsed document shows `--- x` appended to the
file header and a hunk containing only the context line — the header-marker
test is not confined to the pre-hunk phase and the line is not classified as a
delete line. -/
theorem C6_counterexample :
    parseUnifiedDiff c6cex =
      [⟨["diff --git a/f b/f", "+++ b/f", "--- x"], "f",
        [⟨"@@ -1,2 +1,1 @@", 1, 2, 1, 1, [⟨.ctx, " ctx", some 1, some 1, none⟩]⟩]⟩] := by
  decide

/-- C6 (amended): for any line that is not a `diff --git ` marker and any open
file, the header-marker test (`index `, `--- `, `+++ `, `new file`,
`deleted file`) takes precedence in every phase — such a line is appended to
the file header (a `+++ b/` line also resets the path) even when a hunk is
open; a non-marker, non-hunk-header line is appended to the header while no
hunk is open, and once a hunk is open it is classified solely by its leading
character (`+` add, `-` delete, space context, anything else meta) with the
corresponding cursor advance. -/
theorem C6_classification (st : WState) (c : WCur) (line : String)
    (hgit : sStarts line "diff --git " = false) (hcur : st.cur = some c) :
    (isHeaderMarker line = true →
      wstep st line = ⟨st.files,
        some { c with
          header := c.header ++ [line],
          path := if sStarts line "+++ b/" then sTrim (sDrop line 6) else c.path },
        st.oldL, st.newL⟩) ∧
    (isHeaderMarker line = false → matchHunkW line = none → c.hcur = none →
      wstep st line = ⟨st.files, some { c with header := c.header ++ [line] },
        st.oldL, st.newL⟩) ∧
    (∀ hk, isHeaderMarker line = false → matchHunkW line = none → c.hcur = some hk →
      wstep st line = ⟨st.files,
        some { c with hcur := some { hk with
          lines := hk.lines ++ [classifyBody line st.oldL st.newL] } },
        (if sStarts line "+" then st.oldL
          else if sStarts line "-" then st.oldL + 1
          else if sStarts line " " then st.oldL + 1 else st.oldL),
        (if sStarts line "+" then st.newL + 1
          else if sStarts line "-" then st.newL
          else if sStarts line " " then st.newL + 1 else st.newL)⟩) := by
  refine ⟨fun hm => wstep_marker st c line hgit hcur hm,
    fun hm hmh hhc => wstep_hdr2 st c line hgit hcur hm hmh hhc,
    fun hk hm hmh hhc => ?_⟩
  cases hplus : sStarts line "+" with
  | true =>
    rw [wstep_add st c hk line hgit hcur hm hmh hhc hplus]
    simp [classifyBody, hplus]
  | false =>
    cases hminus : sStarts line "-" with
    | true =>
      rw [wstep_del st c hk line hgit hcur hm hmh hhc hplus hminus]
      simp [classifyBody, hplus, hminus]
    | false =>
      cases hspace : sStarts line " " with
      | true =>
        rw [wstep_ctx st c hk line hgit hcur hm hmh hhc hplus hminus hspace]
        simp [classifyBody, hplus, hminus, hspace]
      | false =>
        rw [wstep_meta st c hk line hgit hcur hm hmh hhc hplus hminus hspace]
        simp [classifyBody, hplus, hminus, hspace]

/-- Scanner state with an open hunk, used to witness C6. -/
def c6st : WState :=
  ⟨[], some ⟨["diff --git a/f b/f"], "f", [],
    some ⟨"@@ -5,2 +5,2 @@", 5, 2, 5, 2, []⟩⟩, 5, 5⟩

/-- Witness for C6: feeding the line `--- y` to a state whose hunk is open
appends it to the file header, not to the hunk body. -/
theorem C6_classification_witness :
    wstep c6st "--- y" =
      ⟨[], some ⟨["diff --git a/f b/f", "--- y"], "f", [],
        some ⟨"@@ -5,2 +5,2 @@", 5, 2, 5, 2, []⟩⟩, 5, 5⟩ := by
  have hmain := C6_classification c6st
    ⟨["diff --git a/f b/f"], "f", [], some ⟨"@@ -5,2 +5,2 @@", 5, 2, 5, 2, []⟩⟩
    "--- y" (by decide) rfl
  exact (hmain.1 (by decide)).trans (by decide)

/-! Claim C7: cursor numbering invariant of the scanner. -/

/-- Old-side line numbers attached to the delete/context lines, in order. -/
def projOld (ls : List DiffLine) : List (Option Nat) :=
  (ls.filter fun l => l.type = .del || l.type = .ctx).map (·.oldLine)

/-- New-side line numbers attached to the add/context lines, in order. -/
def projNew (ls : List DiffLine) : List (Option Nat) :=
  (ls.filter fun l => l.type = .add || l.type = .ctx).map (·.newLine)

/-- Number of delete/context lines. -/
def oldTaken (ls : List DiffLine) : Nat :=
  (ls.filter fun l => l.type = .del || l.type = .ctx).length

/-- Number of add/context lines. -/
def newTaken (ls : List DiffLine) : Nat :=
  (ls.filter fun l => l.type = .add || l.type = .ctx).length

/-- Cursor-numbering property of one hunk: the old-side numbers of its
delete/context lines are the consecutive values starting at `oldStart`, and the
new-side numbers of its add/context lines are the consecutive values starting
at `newStart`. -/
def HunkNumbered (h : DiffHunk) : Prop :=
  projOld h.lines = (List.range' h.oldStart (oldTaken h.lines)).map some ∧
  projNew h.lines = (List.range' h.newStart (newTaken h.lines)).map some

/-- Scanner invariant: every closed hunk is numbered, and the open hunk is
numbered with the running cursors sitting exactly past its consumed lines. -/
def WInv (st : WState) : Prop :=
  (∀ f ∈ st.files, ∀ h ∈ f.hunks, HunkNumbered h) ∧
  (∀ c, st.cur = some c →
    (∀ h ∈ c.hunks, HunkNumbered h) ∧
    (∀ h, c.hcur = some h → HunkNumbered h ∧
      st.oldL = h.oldStart + oldTaken h.lines ∧ st.newL = h.newStart + newTaken h.lines))

theorem range'_snoc (s n : Nat) : List.range' s (n + 1) = List.range' s n ++ [s + n] := by
  simpa using @List.range'_concat 1 s n

theorem projOld_append (a b : List DiffLine) : projOld (a ++ b) = projOld a ++ projOld b := by
  simp [projOld, List.filter_append]

theorem projNew_append (a b : List DiffLine) : projNew (a ++ b) = projNew a ++ projNew b := by
  simp [projNew, List.filter_append]

theorem oldTaken_append (a b : List DiffLine) :
    oldTaken (a ++ b) = oldTaken a + oldTaken b := by
  simp [oldTaken, List.filter_append]

theorem newTaken_append (a b : List DiffLine) :
    newTaken (a ++ b) = newTaken a + newTaken b := by
  simp [newTaken, List.filter_append]

theorem closeHunks_numbered (c : WCur) (h1 : ∀ h ∈ c.hunks, HunkNumbered h)
    (h2 : ∀ h, c.hcur = some h → HunkNumbered h) :
    ∀ h ∈ closeHunks c, HunkNumbered h := by
  intro h hh
  unfold closeHunks at hh
  cases hc : c.hcur with
  | none => rw [hc] at hh; exact h1 h hh
  | some hk =>
    rw [hc] at hh
    rcases List.mem_append.mp hh with hmem | hmem
    · exact h1 h hmem
    · rw [List.mem_singleton.mp hmem]
      exact h2 hk hc

theorem WInv_closeCur (st : WState) (hinv : WInv st) :
    ∀ f ∈ closeCur st, ∀ h ∈ f.hunks, HunkNumbered h := by
  intro f hf
  unfold closeCur at hf
  cases hc : st.cur with
  | none => rw [hc] at hf; exact hinv.1 f hf
  | some c =>
    rw [hc] at hf
    rcases List.mem_append.mp hf with hmem | hmem
    · exact hinv.1 f hmem
    · rw [List.mem_singleton.mp hmem]
      intro h hh
      exact closeHunks_numbered c (hinv.2 c hc).1 (fun hk hhk => ((hinv.2 c hc).2 hk hhk).1) h hh

end Spec2Proof

namespace Spec2Proof

theorem projOld_addL (t : String) (n : Nat) :
    projOld [⟨.add, t, none, some n, some true⟩] = [] := rfl

theorem projNew_addL (t : String) (n : Nat) :
    projNew [⟨.add, t, none, some n, some true⟩] = [some n] := rfl

theorem oldTaken_addL (t : String) (n : Nat) :
    oldTaken [⟨.add, t, none, some n, some true⟩] = 0 := rfl

theorem newTaken_addL (t : String) (n : Nat) :
    newTaken [⟨.add, t, none, some n, some true⟩] = 1 := rfl

theorem projOld_delL (t : String) (o : Nat) :
    projOld [⟨.del, t, some o, none, some true⟩] = [some o] := rfl

theorem projNew_delL (t : String) (o : Nat) :
    projNew [⟨.del, t, some o, none, some true⟩] = [] := rfl

theorem oldTaken_delL (t : String) (o : Nat) :
    oldTaken [⟨.del, t, some o, none, some true⟩] = 1 := rfl

theorem newTaken_delL (t : String) (o : Nat) :
    newTaken [⟨.del, t, some o, none, some true⟩] = 0 := rfl

theorem projOld_ctxL (t : String) (o n : Nat) :
    projOld [⟨.ctx, t, some o, some n, none⟩] = [some o] := rfl

theorem projNew_ctxL (t : String) (o n : Nat) :
    projNew [⟨.ctx, t, some o, some n, none⟩] = [some n] := rfl

theorem oldTaken_ctxL (t : String) (o n : Nat) :
    oldTaken [⟨.ctx, t, some o, some n, none⟩] = 1 := rfl

theorem newTaken_ctxL (t : String) (o n : Nat) :
    newTaken [⟨.ctx, t, some o, some n, none⟩] = 1 := rfl

theorem projOld_metaL (t : String) : projOld [⟨.meta, t, none, none, none⟩] = [] := rfl

theorem projNew_metaL (t : String) : projNew [⟨.meta, t, none, none, none⟩] = [] := rfl

theorem oldTaken_metaL (t : String) : oldTaken [⟨.meta, t, none, none, none⟩] = 0 := rfl

theorem newTaken_metaL (t : String) : newTaken [⟨.meta, t, none, none, none⟩] = 0 := rfl

/-- The scanner step preserves the cursor-numbering invariant. -/
theorem WInv_step (st : WState) (line : String) (hinv : WInv st) : WInv (wstep st line) := by
  cases hgit : sStarts line "diff --git " with
  | true =>
    rw [wstep_git st line hgit]
    refine ⟨fun f hf => WInv_closeCur st hinv f hf, ?_⟩
    intro c hc
    cases hc
    refine ⟨?_, ?_⟩
    · intro h hh; simp at hh
    · intro h hhc; simp at hhc
  | false =>
    cases hcur : st.cur with
    | none => rw [wstep_skip st line hgit hcur]; exact hinv
    | some c =>
      have hc2 := hinv.2 c hcur
      cases hmark : isHeaderMarker line with
      | true =>
        rw [wstep_marker st c line hgit hcur hmark]
        refine ⟨hinv.1, ?_⟩
        intro c' hc'
        cases hc'
        exact ⟨hc2.1, fun h hhc => hc2.2 h hhc⟩
      | false =>
        cases hmh : matchHunkW line with
        | some v =>
          obtain ⟨os, ol, ns, nl⟩ := v
          rw [wstep_hunkhdr st c line os ol ns nl hgit hcur hmark hmh]
          refine ⟨hinv.1, ?_⟩
          intro c' hc'
          cases hc'
          refine ⟨closeHunks_numbered c hc2.1 (fun hk hhk => (hc2.2 hk hhk).1), ?_⟩
          intro h hhc
          cases hhc
          refine ⟨⟨?_, ?_⟩, ?_, ?_⟩
          · simp [projOld, oldTaken]
          · simp [projNew, newTaken]
          · simp [oldTaken]
          · simp [newTaken]
        | none =>
          cases hhcur : c.hcur with
          | none =>
            rw [wstep_hdr2 st c line hgit hcur hmark hmh hhcur]
            refine ⟨hinv.1, ?_⟩
            intro c' hc'
            cases hc'
            refine ⟨hc2.1, ?_⟩
            intro h hhc
            have hhc2 : c.hcur = some h := hhc
            rw [hhcur] at hhc2
            cases hhc2
          | some hk =>
            obtain ⟨⟨hpo, hpn⟩, holv, hnlv⟩ := hc2.2 hk hhcur
            cases hplus : sStarts line "+" with
            | true =>
              rw [wstep_add st c hk line hgit hcur hmark hmh hhcur hplus]
              refine ⟨hinv.1, ?_⟩
              intro c' hc'
              cases hc'
              refine ⟨hc2.1, ?_⟩
              intro h hhc
              cases hhc
              refine ⟨⟨?_, ?_⟩, ?_, ?_⟩
              · dsimp only
                rw [projOld_append, oldTaken_append, projOld_addL, oldTaken_addL,
                  List.append_nil, Nat.add_zero]
                exact hpo
              · dsimp only
                rw [projNew_append, newTaken_append, projNew_addL, newTaken_addL,
                  range'_snoc, List.map_append, hpn, hnlv]
                rfl
              · dsimp only
                rw [oldTaken_append, oldTaken_addL, Nat.add_zero]
                exact holv
              · dsimp only
                rw [newTaken_append, newTaken_addL, hnlv]
                omega
            | false =>
              cases hminus : sStarts line "-" with
              | true =>
                rw [wstep_del st c hk line hgit hcur hmark hmh hhcur hplus hminus]
                refine ⟨hinv.1, ?_⟩
                intro c' hc'
                cases hc'
                refine ⟨hc2.1, ?_⟩
                intro h hhc
                cases hhc
                refine ⟨⟨?_, ?_⟩, ?_, ?_⟩
                · dsimp only
                  rw [projOld_append, oldTaken_append, projOld_delL, oldTaken_delL,
                    range'_snoc, List.map_append, hpo, holv]
                  rfl
                · dsimp only
                  rw [projNew_append, newTaken_append, projNew_delL, newTaken_delL,
                    List.append_nil, Nat.add_zero]
                  exact hpn
                · dsimp only
                  rw [oldTaken_append, oldTaken_delL, holv]
                  omega
                · dsimp only
                  rw [newTaken_append, newTaken_delL, Nat.add_zero]
                  exact hnlv
              | false =>
                cases hspace : sStarts line " " with
                | true =>
                  rw [wstep_ctx st c hk line hgit hcur hmark hmh hhcur hplus hminus hspace]
                  refine ⟨hinv.1, ?_⟩
                  intro c' hc'
                  cases hc'
                  refine ⟨hc2.1, ?_⟩
                  intro h hhc
                  cases hhc
                  refine ⟨⟨?_, ?_⟩, ?_, ?_⟩
                  · dsimp only
                    rw [projOld_append, oldTaken_append, projOld_ctxL, oldTaken_ctxL,
                      range'_snoc, List.map_append, hpo, holv]
                    rfl
                  · dsimp only
                    rw [projNew_append, newTaken_append, projNew_ctxL, newTaken_ctxL,
                      range'_snoc, List.map_append, hpn, hnlv]
                    rfl
                  · dsimp only
                    rw [oldTaken_append, oldTaken_ctxL, holv]
                    omega
                  · dsimp only
                    rw [newTaken_append, newTaken_ctxL, hnlv]
                    omega
                | false =>
                  rw [wstep_meta st c hk line hgit hcur hmark hmh hhcur hplus hminus hspace]
                  refine ⟨hinv.1, ?_⟩
                  intro c' hc'
                  cases hc'
                  refine ⟨hc2.1, ?_⟩
                  intro h hhc
                  cases hhc
                  refine ⟨⟨?_, ?_⟩, ?_, ?_⟩
                  · dsimp only
                    rw [projOld_append, projOld_metaL, oldTaken_append, oldTaken_metaL,
                      List.append_nil, Nat.add_zero]
                    exact hpo
                  · dsimp only
                    rw [projNew_append, projNew_metaL, newTaken_append, newTaken_metaL,
                      List.append_nil, Nat.add_zero]
                    exact hpn
                  · dsimp only
                    rw [oldTaken_append, oldTaken_metaL, Nat.add_zero]
                    exact holv
                  · dsimp only
                    rw [newTaken_append, newTaken_metaL, Nat.add_zero]
                    exact hnlv

end Spec2Proof

namespace Spec2Proof

theorem WInv_fold (ls : List String) :
    ∀ st : WState, WInv st → WInv (ls.foldl wstep st) := by
  induction ls with
  | nil => intro st h; exact h
  | cons l t ih => intro st h; exact ih (wstep st l) (WInv_step st l h)

/-- C7: for every hunk of every file produced by `parseUnifiedDiff`, the
`oldLine` values of its delete/context lines are the consecutive integers
starting at the hunk's `oldStart`, and the `newLine` values of its add/context
lines are the consecutive integers starting at `newStart`; meta lines advance
neither cursor. -/
theorem C7_cursor_numbering (s : String) (f : DiffFile) (h : DiffHunk)
    (hf : f ∈ parseUnifiedDiff s) (hh : h ∈ f.hunks) :
    projOld h.lines = (List.range' h.oldStart (oldTaken h.lines)).map some ∧
    projNew h.lines = (List.range' h.newStart (newTaken h.lines)).map some := by
  have hinv0 : WInv ⟨[], none, 0, 0⟩ := by
    constructor
    · intro f hf; simp at hf
    · intro c hc; cases hc
  have hinv := WInv_fold (splitNl s) ⟨[], none, 0, 0⟩ hinv0
  unfold parseUnifiedDiff parseLinesW at hf
  exact WInv_closeCur _ hinv f hf h hh

/-- Parsed hunk of the C7 example diff. -/
def c7hunk : DiffHunk :=
  ⟨"@@ -10,3 +10,4 @@", 10, 3, 10, 4,
    [⟨.ctx, " c1", some 10, some 10, none⟩,
     ⟨.del, "-d1", some 11, none, some true⟩,
     ⟨.add, "+a1", none, some 11, some true⟩,
     ⟨.add, "+a2", none, some 12, some true⟩]⟩

/-- Parsed file of the C7 example diff. -/
def c7file : DiffFile := ⟨["diff --git a/f b/f", "+++ b/f"], "f", [c7hunk]⟩

/-- C7 example diff: header `@@ -10,3 +10,4 @@` with one context line, one
delete line and two add lines. -/
def c7src : String :=
  "diff --git a/f b/f\n+++ b/f\n@@ -10,3 +10,4 @@\n c1\n-d1\n+a1\n+a2"

/-- Witness for C7: on the example the context/delete lines get `oldLine`
10,11 and the context/add lines get `newLine` 10,11,12. -/
theorem C7_cursor_numbering_witness :
    projOld c7hunk.lines = [some 10, some 11] ∧
    projNew c7hunk.lines = [some 10, some 11, some 12] := by
  have hmain := C7_cursor_numbering c7src c7file c7hunk (by decide) (by decide)
  exact ⟨hmain.1.trans (by decide), hmain.2.trans (by decide)⟩

end Spec2Proof

namespace Spec2Proof

/-! Model of `src/patchApply.ts`: its own diff scanner (`parseDiff`,
`parseHunkHeader`), the in-memory hunk applier (`applyHunks`) and the per-file
write loop (`applyUnifiedDiff`), plus the `applyPatch` strategy selection. -/

/-- Hunk of the applier: header fields plus raw body lines. -/
structure PAHunk where
  oldStart : Nat
  oldLines : Nat
  newStart : Nat
  newLines : Nat
  lines : List String
  deriving DecidableEq

/-- File of the applier: target path plus hunks. -/
structure PAFile where
  path : String
  hunks : List PAHunk
  deriving DecidableEq

/-- Model of `Array.prototype.slice(start, stop)`: negative indices count from
the end, both indices are clamped to `[0, length]`. -/
def jsSlice (xs : List String) (start stop : Int) : List String :=
  let len : Int := xs.length
  let s : Int := if start < 0 then max (len + start) 0 else min start len
  let e : Int := if stop < 0 then max (len + stop) 0 else min stop len
  (xs.take e.toNat).drop s.toNat

/-- Model of one-argument `slice(start)`. -/
def jsSliceFrom (xs : List String) (start : Int) : List String :=
  jsSlice xs start xs.length

/-- Read the optional `(?:,(\d+))?` group of the applier pattern: a comma is
consumed only when at least one digit follows. -/
def readCountA (cs : List Char) : Option Nat × List Char :=
  match cs with
  | ',' :: r =>
    let ds := r.takeWhile Char.isDigit
    if ds.isEmpty then (none, ',' :: r) else (some (digitsToNat ds), r.drop ds.length)
  | r => (none, r)

/-- Anchored match of the applier pattern
`@@ -(\d+)(?:,(\d+))? \+(\d+)(?:,(\d+))? @@` at the head of the character list;
absent count groups default to 1. -/
def matchHunkACore (cs : List Char) : Option (Nat × Nat × Nat × Nat) :=
  match cs with
  | '@' :: '@' :: ' ' :: '-' :: r0 =>
    match readDigits r0 with
    | none => none
    | some (os, r1) =>
      match readCountA r1 with
      | (olOpt, r2) =>
        match r2 with
        | ' ' :: '+' :: r3 =>
          match readDigits r3 with
          | none => none
          | some (ns, r4) =>
            match readCountA r4 with
            | (nlOpt, r5) =>
              match r5 with
              | ' ' :: '@' :: '@' :: _ => some (os, olOpt.getD 1, ns, nlOpt.getD 1)
              | _ => none
        | _ => none
  | _ => none

/-- Unanchored search of the applier pattern (the regex is not `^`-anchored). -/
def searchHunkA : List Char → Option (Nat × Nat × Nat × Nat)
  | [] => none
  | c :: cs =>
    match matchHunkACore (c :: cs) with
    | some r => some r
    | none => searchHunkA cs

/-- Model of `parseHunkHeader`: a non-matching line yields the all-zero hunk. -/
def parseHunkHeaderA (line : String) : PAHunk :=
  match searchHunkA line.data with
  | some (a, b, c, d) => ⟨a, b, c, d, []⟩
  | none => ⟨0, 0, 0, 0, []⟩

/-- Lookahead of `parseDiff` after a `diff --git` marker: the first `+++ b/`
line before the next marker, already turned into a path. -/
def findPlusB (ls : List String) : Option String :=
  ((ls.takeWhile fun l => !sStarts l "diff --git").find? fun l => sStarts l "+++ b/").map
    fun l => sTrim (sDrop l 6)

/-- Body lines of one hunk: everything up to the next hunk header or file
marker. -/
def takeHunkBody : List String → List String × List String
  | [] => ([], [])
  | l :: ls =>
    if sStarts l "@@" || sStarts l "diff --git" then ([], l :: ls)
    else
      let p := takeHunkBody ls
      (l :: p.1, p.2)

theorem takeHunkBody_len (ls : List String) : (takeHunkBody ls).2.length ≤ ls.length := by
  induction ls with
  | nil => simp [takeHunkBody]
  | cons l t ih =>
    unfold takeHunkBody
    by_cases hc : (sStarts l "@@" || sStarts l "diff --git") = true
    · simp [hc]
    · simp only [Bool.not_eq_true] at hc
      simp [hc]
      omega

/-- Attach one hunk, parsed from `line` with its body taken from `rest`, to an
open file block. -/
def consumeHunk (c : PAFile) (line : String) (rest : List String) : PAFile :=
  { c with hunks := c.hunks ++ [{ parseHunkHeaderA line with lines := (takeHunkBody rest).1 }] }

/-- Main loop of `parseDiff`: `cur` is the file block being collected (absent
when the current block has no `+++ b/` line), `acc` the finished blocks. The
first argument is structural fuel; every iteration of the source loop advances
the index, so fuel equal to the number of lines is always enough (see
`parseDiffGo_fuel`). -/
def parseDiffGo : Nat → List String → Option PAFile → List PAFile → List PAFile
  | _, [], cur, acc => acc ++ cur.toList
  | 0, _ :: _, cur, acc => acc ++ cur.toList
  | fuel + 1, line :: rest, cur, acc =>
    if sStarts line "diff --git" then
      parseDiffGo fuel rest ((findPlusB rest).map fun p => ⟨p, []⟩) (acc ++ cur.toList)
    else if sStarts line "@@" then
      match cur with
      | some c => parseDiffGo fuel (takeHunkBody rest).2 (some (consumeHunk c line rest)) acc
      | none => parseDiffGo fuel rest none acc
    else parseDiffGo fuel rest cur acc

/-- Any fuel at least the number of remaining lines gives the same result. -/
theorem parseDiffGo_fuel (f : Nat) :
    ∀ (ls : List String) (cur : Option PAFile) (acc : List PAFile),
      ls.length ≤ f →
      parseDiffGo f ls cur acc = parseDiffGo ls.length ls cur acc := by
  induction f using Nat.strong_induction_on with
  | _ f ih =>
    intro ls cur acc hle
    cases ls with
    | nil => cases f <;> rfl
    | cons line rest =>
      cases f with
      | zero => simp at hle
      | succ f =>
        have hr : rest.length ≤ f := by
          simp only [List.length_cons] at hle
          omega
        show parseDiffGo (f + 1) (line :: rest) cur acc
          = parseDiffGo (rest.length + 1) (line :: rest) cur acc
        simp only [parseDiffGo]
        by_cases h1 : sStarts line "diff --git" = true
        · simp only [h1, if_true]
          rw [ih f (by omega) rest _ _ hr]
        · simp only [h1, Bool.false_eq_true, if_false]
          by_cases h2 : sStarts line "@@" = true
          · simp only [h2, if_true]
            cases cur with
            | none =>
              dsimp only
              rw [ih f (by omega) rest _ _ hr]
            | some c =>
              dsimp only
              have hkk := takeHunkBody_len rest
              rw [ih f (by omega) (takeHunkBody rest).2 _ _ (by omega),
                ih rest.length (by omega) (takeHunkBody rest).2 _ _ (by omega)]
          · simp only [h2, Bool.false_eq_true, if_false]
            rw [ih f (by omega) rest _ _ hr]

/-- Scanner entry point on a list of lines. -/
def parseLinesA (ls : List String) : List PAFile := parseDiffGo ls.length ls none []

/-- Model of `parseDiff` from `patchApply.ts` (input split on `/\r?\n/`). -/
def parseDiffA (s : String) : List PAFile := parseLinesA (splitCrLf s)

/-- Replacement block of one hunk: `+` lines and space lines contribute their
content without the marker, `-` lines and anything else contribute nothing. -/
def hunkBlock (h : PAHunk) : List String :=
  h.lines.filterMap fun l =>
    if sStarts l "+" then some (sDrop l 1)
    else if sStarts l "-" then none
    else if sStarts l " " then some (sDrop l 1)
    else none

/-- Loop of `applyHunks`: each iteration splices the replacement block over the
declared old range shifted by the accumulated offset. -/
def applyHunksGo : List String → List PAHunk → Int → List String
  | lines, [], _ => lines
  | lines, h :: rest, offset =>
    let nl := hunkBlock h
    let idx : Int := (h.oldStart : Int) - 1 + offset
    let before := jsSlice lines 0 idx
    let after := jsSliceFrom lines (idx + (h.oldLines : Int))
    applyHunksGo (before ++ nl ++ after) rest (offset + (nl.length : Int) - (h.oldLines : Int))

/-- Model of `applyHunks` from `patchApply.ts`. -/
def applyHunksA (original : String) (hunks : List PAHunk) : String :=
  joinNl (applyHunksGo (splitNl original) hunks 0)

end Spec2Proof

namespace Spec2Proof

/-- File-system model: association list path → content. -/
def lookupFs (fs : List (String × String)) (p : String) : Option String :=
  (fs.find? fun q => q.1 == p).map (·.2)

/-- Write (create or overwrite) one file. -/
def writeFs (fs : List (String × String)) (p v : String) : List (String × String) :=
  if (fs.find? fun q => q.1 == p).isSome then
    fs.map fun q => if q.1 == p then (p, v) else q
  else fs ++ [(p, v)]

/-- Per-file loop of `applyUnifiedDiff`: read the file (missing file = empty
original, the file is then created), apply the hunks, write through the
workspace-edit oracle `writeOk`; the first failed write aborts the batch with
the message `Failed to apply edits to <path>`, leaving earlier writes in
place. Returns the final file system and the thrown error, if any. -/
def applyFilesGo (writeOk : String → Bool) :
    List (String × String) → List PAFile → List (String × String) × Option String
  | fs, [] => (fs, none)
  | fs, f :: rest =>
    let original := (lookupFs fs f.path).getD ""
    let updated := applyHunksA original f.hunks
    if writeOk f.path then applyFilesGo writeOk (writeFs fs f.path updated) rest
    else (fs, some ("Failed to apply edits to " ++ f.path))

/-- Model of `applyUnifiedDiff` from `patchApply.ts`. -/
def applyUnifiedDiffA (writeOk : String → Bool) (fs : List (String × String))
    (diffText : String) : List (String × String) × Option String :=
  applyFilesGo writeOk fs (parseDiffA diffText)

/-- Environment observed by `applyPatch`: workspace presence, the
`useGitApply` configuration value, presence of the `.git` marker directory,
the exit code of the spawned `git apply` subprocess (`none` models a close
without exit code, e.g. a failed launch) and the outcome of the in-memory
fallback (`none` = no exception, `some m` = thrown message). -/
structure PatchEnv where
  hasWorkspaceRoot : Bool
  useGitApply : Bool
  gitMarkerExists : Bool
  gitExitCode : Option Int
  inMemoryThrown : Option String
  deriving DecidableEq

/-- Model of `applyPatch` from `patchApply.ts` as a function of the observed
environment, returning the `{ ok, message }` pair the function produces. -/
def applyPatchModel (env : PatchEnv) : Bool × String :=
  if env.hasWorkspaceRoot = false then (false, "No workspace folder open")
  else if env.useGitApply && env.gitMarkerExists && env.gitExitCode == some 0 then
    (true, "Patch applied (git apply)")
  else
    match env.inMemoryThrown with
    | none => (true, "Patch applied (WorkspaceEdit)")
    | some m => (false, if m = "" then "Failed to apply patch" else m)

/-! Claim C2: in-memory hunk application with offset propagation. -/

/-- Replacement of the slice `[k, k + n)` by a block. -/
def replaceSlice (xs : List String) (k n : Nat) (b : List String) : List String :=
  xs.take k ++ b ++ xs.drop (k + n)

theorem jsSlice_zero_nonneg (xs : List String) (i : Int) (h : 0 ≤ i) :
    jsSlice xs 0 i = xs.take i.toNat := by
  have hlen : (0 : Int) ≤ (xs.length : Int) := by positivity
  dsimp only [jsSlice]
  rw [if_neg (by omega), if_neg (by omega), min_eq_left hlen]
  simp only [Int.toNat_zero, List.drop_zero]
  by_cases hle : i ≤ (xs.length : Int)
  · rw [min_eq_left hle]
  · rw [min_eq_right (by omega)]
    simp only [Int.toNat_natCast, List.take_length]
    exact (List.take_of_length_le (by omega)).symm

theorem jsSliceFrom_nonneg (xs : List String) (i : Int) (h : 0 ≤ i) :
    jsSliceFrom xs i = xs.drop i.toNat := by
  have hlen : (0 : Int) ≤ (xs.length : Int) := by positivity
  dsimp only [jsSliceFrom, jsSlice]
  rw [if_neg (by omega), if_neg (by omega), min_self]
  simp only [Int.toNat_natCast, List.take_length]
  by_cases hle : i ≤ (xs.length : Int)
  · rw [min_eq_left hle]
  · rw [min_eq_right (by omega)]
    simp only [Int.toNat_natCast, List.drop_length]
    exact (List.drop_eq_nil_of_le (by omega)).symm

/-- C2: `applyHunks` processes the hunks in textual order with an offset
starting at 0; each step replaces the slice
`[oldStart - 1 + offset, oldStart - 1 + offset + oldLines)` of the current
line array by the block of add/context contents (delete lines contribute
nothing) and adds `block length - oldLines` to the offset; consequently a
first hunk netting +2 lines splices the second hunk at
`(oldStart - 1) + 2 = oldStart + 1`. -/
theorem C2_offset_propagation :
    (∀ (lines : List String) (h : PAHunk) (rest : List PAHunk) (offset : Int),
      0 ≤ (h.oldStart : Int) - 1 + offset →
      applyHunksGo lines (h :: rest) offset
        = applyHunksGo
            (replaceSlice lines ((h.oldStart : Int) - 1 + offset).toNat h.oldLines (hunkBlock h))
            rest (offset + (hunkBlock h).length - h.oldLines)) ∧
    (∀ (lines : List String) (h1 h2 : PAHunk),
      1 ≤ h1.oldStart →
      (hunkBlock h1).length = h1.oldLines + 2 →
      applyHunksGo lines [h1, h2] 0
        = replaceSlice
            (replaceSlice lines (h1.oldStart - 1) h1.oldLines (hunkBlock h1))
            (h2.oldStart + 1) h2.oldLines (hunkBlock h2)) := by
  have hstep : ∀ (lines : List String) (h : PAHunk) (rest : List PAHunk) (offset : Int),
      0 ≤ (h.oldStart : Int) - 1 + offset →
      applyHunksGo lines (h :: rest) offset
        = applyHunksGo
            (replaceSlice lines ((h.oldStart : Int) - 1 + offset).toNat h.oldLines (hunkBlock h))
            rest (offset + (hunkBlock h).length - h.oldLines) := by
    intro lines h rest offset hpos
    show applyHunksGo
        (jsSlice lines 0 ((h.oldStart : Int) - 1 + offset) ++ hunkBlock h ++
          jsSliceFrom lines (((h.oldStart : Int) - 1 + offset) + (h.oldLines : Int)))
        rest (offset + ((hunkBlock h).length : Int) - (h.oldLines : Int))
      = _
    rw [jsSlice_zero_nonneg lines _ hpos, jsSliceFrom_nonneg lines _ (by omega)]
    unfold replaceSlice
    have htn : (((h.oldStart : Int) - 1 + offset) + (h.oldLines : Int)).toNat
        = ((h.oldStart : Int) - 1 + offset).toNat + h.oldLines := by omega
    rw [htn]
  refine ⟨hstep, ?_⟩
  intro lines h1 h2 hge hlen
  have h1pos : 0 ≤ (h1.oldStart : Int) - 1 + 0 := by omega
  rw [hstep lines h1 [h2] 0 h1pos]
  have h2pos : 0 ≤ (h2.oldStart : Int) - 1 + (0 + ((hunkBlock h1).length : Int)
      - (h1.oldLines : Int)) := by omega
  rw [hstep _ h2 [] _ h2pos]
  show replaceSlice _ _ h2.oldLines (hunkBlock h2) = _
  have e1 : ((h1.oldStart : Int) - 1 + 0).toNat = h1.oldStart - 1 := by omega
  have e2 : ((h2.oldStart : Int) - 1 + (0 + ((hunkBlock h1).length : Int)
      - (h1.oldLines : Int))).toNat = h2.oldStart + 1 := by
    rw [hlen]
    push_cast
    omega
  rw [e1, e2]

/-- Witness for C2 at concrete hunks: the first hunk nets +2, the second hunk
splices at `oldStart + 1`. -/
theorem C2_offset_propagation_witness :
    (0 ≤ ((2 : Nat) : Int) - 1 + 3 ∧
      applyHunksGo ["a", "b", "c", "d", "e", "f", "g"]
        [⟨2, 1, 2, 3, ["+x", "+y", "+z"]⟩] 3
        = applyHunksGo
            (replaceSlice ["a", "b", "c", "d", "e", "f", "g"]
              (((2 : Nat) : Int) - 1 + 3).toNat 1
              (hunkBlock ⟨2, 1, 2, 3, ["+x", "+y", "+z"]⟩))
            [] (3 + (hunkBlock ⟨2, 1, 2, 3, ["+x", "+y", "+z"]⟩).length - 1)) ∧
    applyHunksGo ["a", "b", "c", "d", "e", "f", "g"]
        [⟨2, 1, 2, 3, ["+x", "+y", "+z"]⟩, ⟨5, 2, 7, 1, [" k", "-p", "-q"]⟩] 0
      = replaceSlice
          (replaceSlice ["a", "b", "c", "d", "e", "f", "g"] 1 1
            (hunkBlock ⟨2, 1, 2, 3, ["+x", "+y", "+z"]⟩))
          6 2 (hunkBlock ⟨5, 2, 7, 1, [" k", "-p", "-q"]⟩) :=
  ⟨⟨by decide,
    C2_offset_propagation.1 ["a", "b", "c", "d", "e", "f", "g"]
      ⟨2, 1, 2, 3, ["+x", "+y", "+z"]⟩ [] 3 (by decide)⟩,
   C2_offset_propagation.2 ["a", "b", "c", "d", "e", "f", "g"]
     ⟨2, 1, 2, 3, ["+x", "+y", "+z"]⟩ ⟨5, 2, 7, 1, [" k", "-p", "-q"]⟩
     (by decide) (by decide)⟩

/-! Claim C3: external-tool preference and fallback. -/

/-- C3: with a workspace open, the external strategy is used exactly when the
preference is set, the marker directory exists and the subprocess exits 0; in
every other case the in-memory strategy runs, and a thrown-free in-memory run
reports success — so external-tool unavailability alone never yields a
failure, and a failure implies the in-memory fallback itself threw. -/
theorem C3_fallback (env : PatchEnv) (hws : env.hasWorkspaceRoot = true) :
    (env.useGitApply = true → env.gitMarkerExists = true → env.gitExitCode = some 0 →
      applyPatchModel env = (true, "Patch applied (git apply)")) ∧
    ((env.useGitApply = false ∨ env.gitMarkerExists = false ∨ env.gitExitCode ≠ some 0) →
      env.inMemoryThrown = none →
      applyPatchModel env = (true, "Patch applied (WorkspaceEdit)")) ∧
    (∀ m : String, applyPatchModel env = (false, m) → env.inMemoryThrown ≠ none) := by
  refine ⟨?_, ?_, ?_⟩
  · intro h1 h2 h3
    simp [applyPatchModel, hws, h1, h2, h3]
  · intro hcase hok
    have hgate : (env.useGitApply && env.gitMarkerExists && env.gitExitCode == some 0) = false := by
      rcases hcase with h | h | h <;> simp [h]
    simp [applyPatchModel, hws, hgate, hok]
  · intro m hfail hmem
    rw [applyPatchModel] at hfail
    rw [hws] at hfail
    simp only [Bool.true_eq_false, if_false] at hfail
    cases hgate : (env.useGitApply && env.gitMarkerExists && env.gitExitCode == some 0) with
    | true => rw [hgate] at hfail; simp at hfail
    | false =>
      rw [hgate] at hfail
      rw [hmem] at hfail
      simp at hfail

/-- Witness for C3: marker directory absent, in-memory fallback succeeds,
outcome is the in-memory success message. -/
theorem C3_fallback_witness :
    applyPatchModel ⟨true, true, false, none, none⟩ = (true, "Patch applied (WorkspaceEdit)") :=
  (C3_fallback ⟨true, true, false, none, none⟩ rfl).2.1 (Or.inr (Or.inl rfl)) rfl

end Spec2Proof

namespace Spec2Proof

/-! Claim C9: non-atomic batch failure of the in-memory apply. -/

/-- Effect of successfully writing one parsed file. -/
def writeStep (fs : List (String × String)) (f : PAFile) : List (String × String) :=
  writeFs fs f.path (applyHunksA ((lookupFs fs f.path).getD "") f.hunks)

/-- C9: the first file whose write fails aborts the batch with an error naming
that file; every file before it in the batch has already been written and is
not rolled back, and no later file is touched. -/
theorem C9_non_atomic (writeOk : String → Bool) (pre : List PAFile) :
    ∀ (fs : List (String × String)) (bad : PAFile) (post : List PAFile),
      (∀ f ∈ pre, writeOk f.path = true) → writeOk bad.path = false →
      applyFilesGo writeOk fs (pre ++ bad :: post)
        = (pre.foldl writeStep fs, some ("Failed to apply edits to " ++ bad.path)) := by
  induction pre with
  | nil =>
    intro fs bad post _ hbad
    show applyFilesGo writeOk fs (bad :: post) = _
    unfold applyFilesGo
    rw [hbad]
    rfl
  | cons f t ih =>
    intro fs bad post hpre hbad
    have hf : writeOk f.path = true := hpre f (List.mem_cons_self f t)
    show applyFilesGo writeOk fs (f :: (t ++ bad :: post)) = _
    unfold applyFilesGo
    rw [hf]
    simp only [if_true]
    rw [List.foldl_cons]
    exact ih (writeStep fs f) bad post (fun g hg => hpre g (List.mem_cons_of_mem f hg)) hbad

/-- Witness for C9: three-file batch, the second write fails; the first file's
new content is present in the final file system, the third file is untouched,
and the reported path is the second file's. -/
theorem C9_non_atomic_witness :
    ((∀ f ∈ [(⟨"ok.txt", [⟨0, 0, 1, 1, ["+hello"]⟩]⟩ : PAFile)],
        (fun p => p != "bad.txt") f.path = true) ∧
      (fun p => p != "bad.txt") (⟨"bad.txt", []⟩ : PAFile).path = false) ∧
    applyFilesGo (fun p => p != "bad.txt") []
        [⟨"ok.txt", [⟨0, 0, 1, 1, ["+hello"]⟩]⟩, ⟨"bad.txt", []⟩,
         ⟨"later.txt", [⟨0, 0, 1, 1, ["+zzz"]⟩]⟩]
      = ([("ok.txt", "hello\n")], some "Failed to apply edits to bad.txt") :=
  ⟨⟨by decide, by decide⟩, by
    have hmain := C9_non_atomic (fun p => p != "bad.txt")
      [⟨"ok.txt", [⟨0, 0, 1, 1, ["+hello"]⟩]⟩] [] ⟨"bad.txt", []⟩
      [⟨"later.txt", [⟨0, 0, 1, 1, ["+zzz"]⟩]⟩] (by decide) (by decide)
    exact hmain.trans (by decide)⟩

/-! Claim C10: a file block with no `+++ b/` line is silently dropped by the
applier's own scanner. -/

theorem findPlusB_none (bl : List String) (rest : List String)
    (hb : ∀ l ∈ bl, sStarts l "diff --git" = false ∧ sStarts l "+++ b/" = false)
    (hr : rest = [] ∨ ∃ m r2, rest = m :: r2 ∧ sStarts m "diff --git" = true) :
    findPlusB (bl ++ rest) = none := by
  induction bl with
  | nil =>
    rcases hr with rfl | ⟨m, r2, rfl, hm⟩
    · rfl
    · simp [findPlusB, List.takeWhile_cons, hm]
  | cons l t ih =>
    obtain ⟨hl1, hl2⟩ := hb l (List.mem_cons_self l t)
    have ihx := ih (fun g hg => hb g (List.mem_cons_of_mem l hg))
    simp only [findPlusB, List.cons_append, List.takeWhile_cons, hl1, Bool.not_false,
      if_true, List.find?_cons, hl2] at ihx ⊢
    exact ihx

theorem parseDiffGo_skip (bl : List String) :
    ∀ (f : Nat) (rest : List String) (acc : List PAFile),
      bl.length + rest.length ≤ f →
      (∀ l ∈ bl, sStarts l "diff --git" = false) →
      parseDiffGo f (bl ++ rest) none acc = parseDiffGo rest.length rest none acc := by
  induction bl with
  | nil =>
    intro f rest acc hf _
    exact parseDiffGo_fuel f rest none acc (by simpa using hf)
  | cons l t ih =>
    intro f rest acc hf hb
    have hl : sStarts l "diff --git" = false := hb l (List.mem_cons_self l t)
    cases f with
    | zero => simp at hf
    | succ f =>
      show parseDiffGo (f + 1) (l :: (t ++ rest)) none acc = _
      simp only [parseDiffGo]
      rw [hl]
      simp only [Bool.false_eq_true, if_false, ite_self]
      exact ih f rest acc (by simp only [List.length_cons] at hf; omega)
        (fun g hg => hb g (List.mem_cons_of_mem l hg))

/-- C10: a `diff --git` block that contains no `+++ b/` line before the next
marker (for example a deletion block whose new side is `+++ /dev/null`)
contributes nothing to `parseDiff` — whatever file was open is flushed, none
of the block's hunks are parsed — and therefore the in-memory apply neither
touches a file for it nor reports an error: the apply result is exactly that
of the diff without the block. -/
theorem C10_dropped_block (marker : String) (blockLines rest : List String)
    (hm : sStarts marker "diff --git" = true)
    (hb : ∀ l ∈ blockLines, sStarts l "diff --git" = false ∧ sStarts l "+++ b/" = false)
    (hr : rest = [] ∨ ∃ m r2, rest = m :: r2 ∧ sStarts m "diff --git" = true) :
    (∀ (cur : Option PAFile) (acc : List PAFile),
      parseDiffGo ((marker :: blockLines) ++ rest).length ((marker :: blockLines) ++ rest) cur acc
        = parseDiffGo rest.length rest none (acc ++ cur.toList)) ∧
    (∀ (writeOk : String → Bool) (fs : List (String × String)),
      applyFilesGo writeOk fs (parseLinesA ((marker :: blockLines) ++ rest))
        = applyFilesGo writeOk fs (parseLinesA rest)) := by
  have hpart1 : ∀ (cur : Option PAFile) (acc : List PAFile),
      parseDiffGo ((marker :: blockLines) ++ rest).length ((marker :: blockLines) ++ rest) cur acc
        = parseDiffGo rest.length rest none (acc ++ cur.toList) := by
    intro cur acc
    show parseDiffGo ((blockLines ++ rest).length + 1) (marker :: (blockLines ++ rest)) cur acc = _
    simp only [parseDiffGo]
    rw [hm]
    simp only [if_true, findPlusB_none blockLines rest hb hr, Option.map_none']
    exact parseDiffGo_skip blockLines (blockLines ++ rest).length rest (acc ++ cur.toList)
      (by simp) (fun l hl => (hb l hl).1)
  refine ⟨hpart1, ?_⟩
  intro writeOk fs
  show applyFilesGo writeOk fs
      (parseDiffGo ((marker :: blockLines) ++ rest).length ((marker :: blockLines) ++ rest) none [])
    = _
  rw [hpart1 none []]
  rfl

/-- Witness for C10: a two-block diff whose first block is a file deletion
(`+++ /dev/null`); only the second block's file is parsed, and applying the
whole diff equals applying the second block alone. -/
theorem C10_dropped_block_witness :
    parseLinesA
        (["diff --git a/gone.txt b/gone.txt", "index 12..00", "--- a/gone.txt",
          "+++ /dev/null", "@@ -1,2 +0,0 @@", "-l1", "-l2"] ++
         ["diff --git a/keep.txt b/keep.txt", "+++ b/keep.txt", "@@ -1,1 +1,1 @@",
          "-x", "+y"])
      = [⟨"keep.txt", [⟨1, 1, 1, 1, ["-x", "+y"]⟩]⟩] := by
  have hmain := (C10_dropped_block "diff --git a/gone.txt b/gone.txt"
    ["index 12..00", "--- a/gone.txt", "+++ /dev/null", "@@ -1,2 +0,0 @@", "-l1", "-l2"]
    ["diff --git a/keep.txt b/keep.txt", "+++ b/keep.txt", "@@ -1,1 +1,1 @@", "-x", "+y"]
    (by decide) (by decide)
    (Or.inr ⟨"diff --git a/keep.txt b/keep.txt",
      ["+++ b/keep.txt", "@@ -1,1 +1,1 @@", "-x", "+y"], rfl, by decide⟩)).1 none []
  exact hmain.trans (by decide)

end Spec2Proof

namespace Spec2Proof

/-! Claim C8: in-memory apply creating a new file from a `@@ -0,0 +1,2 @@`
hunk with two add lines. -/

theorem strext (x y : String) (h : x.data = y.data) : x = y := by
  cases x; cases y; cases h; rfl

theorem sdata_append (a b : String) : (a ++ b).data = a.data ++ b.data := rfl

theorem plus_data (a : String) : ("+" ++ a).data = '+' :: a.data := by
  rw [sdata_append]
  rfl

theorem lStartsWith_head_ne (p c : Char) (ps cs : List Char) (h : ¬p = c) :
    lStartsWith (p :: ps) (c :: cs) = false := by
  simp [lStartsWith, h]

theorem plus_not_git (a : String) : sStarts ("+" ++ a) "diff --git" = false := by
  unfold sStarts
  rw [plus_data]
  rw [show ("diff --git" : String).data = 'd' :: ("iff --git" : String).data from rfl]
  exact lStartsWith_head_ne _ _ _ _ (by decide)

theorem plus_not_atat (a : String) : sStarts ("+" ++ a) "@@" = false := by
  unfold sStarts
  rw [plus_data]
  rw [show ("@@" : String).data = '@' :: ("@" : String).data from rfl]
  exact lStartsWith_head_ne _ _ _ _ (by decide)

theorem plus_is_plus (a : String) : sStarts ("+" ++ a) "+" = true := by
  unfold sStarts
  rw [plus_data]
  rw [show ("+" : String).data = ['+'] from rfl]
  simp [lStartsWith]

theorem sDrop_plus (a : String) : sDrop ("+" ++ a) 1 = a := by
  unfold sDrop
  rw [plus_data]
  rfl

theorem dropCr_id (l : List Char) (h : '\r' ∉ l) : dropCr l = l := by
  unfold dropCr
  cases hr : l.reverse with
  | nil => rfl
  | cons c r =>
    have hc : c ≠ '\r' := by
      intro hcc
      apply h
      rw [← List.mem_reverse, hr, hcc]
      exact List.mem_cons_self _ _
    simp [hc]

theorem stripCrAll_id (ps : List (List Char)) (h : ∀ l ∈ ps, '\r' ∉ l) :
    stripCrAll ps = ps := by
  induction ps with
  | nil => rfl
  | cons x xs ih =>
    cases xs with
    | nil => rfl
    | cons y ys =>
      show dropCr x :: stripCrAll (y :: ys) = x :: y :: ys
      rw [dropCr_id x (h x (List.mem_cons_self x _)),
        ih (fun l hl => h l (List.mem_cons_of_mem x hl))]

theorem splitCrLf_joinNl (ls : List String) (hne : ls ≠ [])
    (h1 : ∀ l ∈ ls, '\n' ∉ l.data) (h2 : ∀ l ∈ ls, '\r' ∉ l.data) :
    splitCrLf (joinNl ls) = ls := by
  unfold splitCrLf joinNl
  have hd : (⟨ljoin (ls.map String.data)⟩ : String).data = ljoin (ls.map String.data) := rfl
  rw [hd, lsplit_ljoin (ls.map String.data) (by simpa using hne)
    (by intro l hl
        rcases List.mem_map.mp hl with ⟨t, ht, rfl⟩
        exact h1 t ht)]
  rw [stripCrAll_id (ls.map String.data)
    (by intro l hl
        rcases List.mem_map.mp hl with ⟨t, ht, rfl⟩
        exact h2 t ht)]
  exact map_mk_data ls

/-- Branch equations of `parseDiffGo` used to evaluate it on semi-concrete
input. -/
theorem parseDiffGo_cons_git (f : Nat) (line : String) (rest : List String)
    (cur : Option PAFile) (acc : List PAFile) (h1 : sStarts line "diff --git" = true) :
    parseDiffGo (f + 1) (line :: rest) cur acc
      = parseDiffGo f rest ((findPlusB rest).map fun p => ⟨p, []⟩) (acc ++ cur.toList) := by
  simp [parseDiffGo, h1]

theorem parseDiffGo_cons_hunk (f : Nat) (line : String) (rest : List String)
    (c : PAFile) (acc : List PAFile)
    (h1 : sStarts line "diff --git" = false) (h2 : sStarts line "@@" = true) :
    parseDiffGo (f + 1) (line :: rest) (some c) acc
      = parseDiffGo f (takeHunkBody rest).2 (some (consumeHunk c line rest)) acc := by
  simp [parseDiffGo, h1, h2]

theorem parseDiffGo_cons_other (f : Nat) (line : String) (rest : List String)
    (cur : Option PAFile) (acc : List PAFile)
    (h1 : sStarts line "diff --git" = false) (h2 : sStarts line "@@" = false) :
    parseDiffGo (f + 1) (line :: rest) cur acc = parseDiffGo f rest cur acc := by
  simp only [parseDiffGo, h1, Bool.false_eq_true, if_false, h2, ite_self]

/-- The six lines of the C8 example diff. -/
def c8lines (a b : String) : List String :=
  ["diff --git a/newfile.txt b/newfile.txt", "--- /dev/null", "+++ b/newfile.txt",
   "@@ -0,0 +1,2 @@", "+" ++ a, "+" ++ b]

/-- The C8 example diff text. -/
def c8diff (a b : String) : String := joinNl (c8lines a b)

theorem c8_find (a b : String) :
    findPlusB ["--- /dev/null", "+++ b/newfile.txt", "@@ -0,0 +1,2 @@",
      "+" ++ a, "+" ++ b] = some "newfile.txt" := by
  unfold findPlusB
  rw [List.takeWhile_cons, if_pos (by decide), List.takeWhile_cons, if_pos (by decide),
    List.takeWhile_cons, if_pos (by decide),
    List.takeWhile_cons, if_pos (by simp [plus_not_git]),
    List.takeWhile_cons, if_pos (by simp [plus_not_git]), List.takeWhile_nil]
  rw [List.find?_cons_of_neg _ (by decide), List.find?_cons_of_pos _ (by decide)]
  decide

theorem c8_body (a b : String) :
    takeHunkBody ["+" ++ a, "+" ++ b] = (["+" ++ a, "+" ++ b], []) := by
  unfold takeHunkBody
  rw [if_neg (by simp [plus_not_atat, plus_not_git])]
  unfold takeHunkBody
  rw [if_neg (by simp [plus_not_atat, plus_not_git])]
  rfl

theorem c8_parse (a b : String) :
    parseLinesA (c8lines a b)
      = [⟨"newfile.txt", [⟨0, 0, 1, 2, ["+" ++ a, "+" ++ b]⟩]⟩] := by
  show parseDiffGo (5 + 1)
    ("diff --git a/newfile.txt b/newfile.txt" :: ["--- /dev/null", "+++ b/newfile.txt",
      "@@ -0,0 +1,2 @@", "+" ++ a, "+" ++ b]) none [] = _
  rw [parseDiffGo_cons_git 5 _ _ _ _ (by decide), c8_find a b]
  show parseDiffGo (4 + 1) ("--- /dev/null" :: ["+++ b/newfile.txt",
    "@@ -0,0 +1,2 @@", "+" ++ a, "+" ++ b]) (some ⟨"newfile.txt", []⟩) [] = _
  rw [parseDiffGo_cons_other 4 _ _ _ _ (by decide) (by decide)]
  show parseDiffGo (3 + 1) ("+++ b/newfile.txt" :: ["@@ -0,0 +1,2 @@",
    "+" ++ a, "+" ++ b]) (some ⟨"newfile.txt", []⟩) [] = _
  rw [parseDiffGo_cons_other 3 _ _ _ _ (by decide) (by decide)]
  show parseDiffGo (2 + 1) ("@@ -0,0 +1,2 @@" :: ["+" ++ a, "+" ++ b])
    (some ⟨"newfile.txt", []⟩) [] = _
  rw [parseDiffGo_cons_hunk 2 _ _ _ _ (by decide) (by decide)]
  rw [show consumeHunk ⟨"newfile.txt", []⟩ "@@ -0,0 +1,2 @@" ["+" ++ a, "+" ++ b]
      = ⟨"newfile.txt", [⟨0, 0, 1, 2, ["+" ++ a, "+" ++ b]⟩]⟩ by
    unfold consumeHunk
    rw [c8_body a b]
    rw [show parseHunkHeaderA "@@ -0,0 +1,2 @@" = ⟨0, 0, 1, 2, []⟩ from by decide]
    rfl]
  rw [show (takeHunkBody ["+" ++ a, "+" ++ b]).2 = [] from by rw [c8_body a b]]
  rfl

theorem c8_block (a b : String) :
    hunkBlock ⟨0, 0, 1, 2, ["+" ++ a, "+" ++ b]⟩ = [a, b] := by
  unfold hunkBlock
  rw [List.filterMap_cons, List.filterMap_cons, List.filterMap_nil]
  rw [show (if sStarts ("+" ++ a) "+" then some (sDrop ("+" ++ a) 1)
      else if sStarts ("+" ++ a) "-" then none
      else if sStarts ("+" ++ a) " " then some (sDrop ("+" ++ a) 1) else none) = some a by
    rw [if_pos (plus_is_plus a), sDrop_plus]]
  rw [show (if sStarts ("+" ++ b) "+" then some (sDrop ("+" ++ b) 1)
      else if sStarts ("+" ++ b) "-" then none
      else if sStarts ("+" ++ b) " " then some (sDrop ("+" ++ b) 1) else none) = some b by
    rw [if_pos (plus_is_plus b), sDrop_plus]]

theorem applyHunksGo_cons (lines : List String) (h : PAHunk) (rest : List PAHunk)
    (offset : Int) :
    applyHunksGo lines (h :: rest) offset
      = applyHunksGo
          (jsSlice lines 0 ((h.oldStart : Int) - 1 + offset) ++ hunkBlock h ++
            jsSliceFrom lines (((h.oldStart : Int) - 1 + offset) + (h.oldLines : Int)))
          rest (offset + ((hunkBlock h).length : Int) - (h.oldLines : Int)) := rfl

theorem c8_apply (a b : String) :
    applyHunksA "" [⟨0, 0, 1, 2, ["+" ++ a, "+" ++ b]⟩] = a ++ "\n" ++ b ++ "\n" := by
  unfold applyHunksA
  rw [show splitNl "" = [""] from by decide]
  rw [applyHunksGo_cons, c8_block a b]
  have e1 : jsSlice [""] 0 (((0 : Nat) : Int) - 1 + 0) = [] := by decide
  have e2 : jsSliceFrom [""] ((((0 : Nat) : Int) - 1 + 0) + ((0 : Nat) : Int)) = [""] := by
    decide
  show joinNl (jsSlice [""] 0 (((0 : Nat) : Int) - 1 + 0) ++ [a, b] ++
    jsSliceFrom [""] ((((0 : Nat) : Int) - 1 + 0) + ((0 : Nat) : Int))) = _
  rw [e1, e2]
  show joinNl [a, b, ""] = _
  apply strext
  show ljoin [a.data, b.data, []] = _
  show a.data ++ '\n' :: (b.data ++ '\n' :: []) = _
  simp [sdata_append]

/-- C8: applying, via the in-memory strategy, a diff whose target file is
absent from the file system (original content treated as empty), with a single
hunk `@@ -0,0 +1,2 @@` holding two add lines, writes the file containing
exactly those two lines, each terminated by a newline, and reports no error. -/
theorem C8_new_file (a b : String) (writeOk : String → Bool) (fs : List (String × String))
    (ha1 : '\n' ∉ a.data) (ha2 : '\r' ∉ a.data) (hb1 : '\n' ∉ b.data) (hb2 : '\r' ∉ b.data)
    (hmiss : lookupFs fs "newfile.txt" = none) (hw : writeOk "newfile.txt" = true) :
    applyUnifiedDiffA writeOk fs (c8diff a b)
      = (writeFs fs "newfile.txt" (a ++ "\n" ++ b ++ "\n"), none) := by
  have hno1 : ∀ l ∈ c8lines a b, '\n' ∉ l.data := by
    intro l hl
    simp only [c8lines, List.mem_cons, List.not_mem_nil, or_false] at hl
    rcases hl with rfl | rfl | rfl | rfl | rfl | rfl
    · decide
    · decide
    · decide
    · decide
    · rw [plus_data]; intro hx; rcases List.mem_cons.mp hx with h | h
      · exact absurd h (by decide)
      · exact ha1 h
    · rw [plus_data]; intro hx; rcases List.mem_cons.mp hx with h | h
      · exact absurd h (by decide)
      · exact hb1 h
  have hno2 : ∀ l ∈ c8lines a b, '\r' ∉ l.data := by
    intro l hl
    simp only [c8lines, List.mem_cons, List.not_mem_nil, or_false] at hl
    rcases hl with rfl | rfl | rfl | rfl | rfl | rfl
    · decide
    · decide
    · decide
    · decide
    · rw [plus_data]; intro hx; rcases List.mem_cons.mp hx with h | h
      · exact absurd h (by decide)
      · exact ha2 h
    · rw [plus_data]; intro hx; rcases List.mem_cons.mp hx with h | h
      · exact absurd h (by decide)
      · exact hb2 h
  unfold applyUnifiedDiffA parseDiffA c8diff
  rw [splitCrLf_joinNl (c8lines a b) (by simp [c8lines]) hno1 hno2]
  rw [c8_parse a b]
  show applyFilesGo writeOk fs [⟨"newfile.txt", [⟨0, 0, 1, 2, ["+" ++ a, "+" ++ b]⟩]⟩] = _
  unfold applyFilesGo
  rw [show (⟨"newfile.txt", [⟨0, 0, 1, 2, ["+" ++ a, "+" ++ b]⟩]⟩ : PAFile).path
    = "newfile.txt" from rfl]
  rw [hmiss, hw]
  simp only [if_true, Option.getD_none]
  rw [c8_apply a b]
  rfl

/-- Witness for C8 at concrete line contents and an empty file system. -/
theorem C8_new_file_witness :
    applyUnifiedDiffA (fun _ => true) [] (c8diff "line1" "line2")
      = (writeFs [] "newfile.txt" ("line1" ++ "\n" ++ "line2" ++ "\n"), none) :=
  C8_new_file "line1" "line2" (fun _ => true) [] (by decide) (by decide) (by decide)
    (by decide) (by decide) (by decide)

end Spec2Proof
